import Mathlib

/-!
Verification of the link-enrichment pipeline of the `quitemailingyourself`
repository (a "Pocketish" bookmarking service).

The development shallowly embeds the Python source:

* `backend/app.py` — URL normalization (`normalize_url`), the link queue
  (`enqueue_link`, the claim step of `worker_loop`), the processing pipeline
  (`fetch_html`, `_extract_text_from_html`, `calculate_reading_time`,
  `ai_enrich`, `_process_one`) and the SQLAlchemy data model (`Link`,
  `LinkTag` and their uniqueness constraints).
* `backend/utils.py` — the SSRF fetch guard (`is_private_host`, `fetch_html`)
  and the content extractor (`extract_content`).

Python strings are modelled as `List Char`; machine-independent library
behaviour that the source calls into (`urllib.parse.urlsplit` / `urlunsplit`,
`str.strip`, `str.split`, `str.lower`, …) is embedded following CPython's
documented semantics.  Network and HTML-parsing effects are passed in as
explicit function parameters (a resolver, an HTTP client, a parser), so every
definition is executable and every effectful behaviour is quantified over.
-/

namespace Pocketish

/-! ### Python string primitives (CPython semantics, ASCII-faithful)

Python's `str` operations used by the source, on `List Char`.  Unicode
whitespace beyond ASCII and non-ASCII case folding do not occur in any claim
instance; the definitions are exact on ASCII input. -/

/-- The characters `str.strip()` / `str.split()` treat as whitespace
(ASCII part: space, tab, newline, carriage return, vertical tab, form feed). -/
def pySpaceChar (c : Char) : Bool :=
  c = ' ' || c = '\t' || c = '\n' || c = '\x0d' || c = '\x0b' || c = '\x0c'

/-- Python `str.strip()` (no argument): drop whitespace from both ends. -/
def pyStrip (l : List Char) : List Char :=
  ((l.dropWhile pySpaceChar).reverse.dropWhile pySpaceChar).reverse

/-- Python `str.lower()` on one character (ASCII case folding, as used on
schemes and host names in the source): code points 65–90 shift to 97–122,
everything else is unchanged. -/
def pyLowerChar (c : Char) : Char :=
  if 65 ≤ c.toNat ∧ c.toNat ≤ 90 then Char.ofNat (c.toNat + 32) else c

/-- Python `str.lower()`. -/
def pyLower (l : List Char) : List Char := l.map pyLowerChar

/-- Python `str.split()` with no separator: split on runs of whitespace,
discarding empty fields.  Used by `calculate_reading_time` to count words. -/
def pyWords : List Char → List (List Char)
  | [] => []
  | c :: cs =>
    if pySpaceChar c then pyWords cs
    else
      match pyWords cs with
      | [] => [[c]]
      | w :: ws =>
        match cs with
        | [] => [[c]]
        | c' :: _ => if pySpaceChar c' then [c] :: w :: ws else (c :: w) :: ws

/-- Split at the first occurrence of `c` (Python `s.split(c, 1)` when `c`
occurs): returns the parts before and after; `none` when `c` is absent. -/
def splitOnceChar (c : Char) : List Char → Option (List Char × List Char)
  | [] => none
  | a :: l =>
    if a = c then some ([], l)
    else (splitOnceChar c l).map (fun p => (a :: p.1, p.2))

/-- Split at the last occurrence of `c` (Python `s.rsplit(c, 1)` when `c`
occurs). -/
def rsplitOnceChar (c : Char) (l : List Char) : Option (List Char × List Char) :=
  (splitOnceChar c l.reverse).map (fun p => (p.2.reverse, p.1.reverse))

/-- Python `sub in s` (substring containment) on character lists. -/
def containsSeq (needle : List Char) : List Char → Bool
  | [] => decide (needle = [])
  | c :: cs => needle.isPrefixOf (c :: cs) || containsSeq needle cs

/-! ### urllib.parse model

`normalize_url` in `backend/app.py` is built on `urllib.parse.urlsplit` and
`urlunsplit`.  They are embedded below following modern CPython semantics
(3.11+ `urllib/parse.py`): tab/CR/LF bytes are removed anywhere, leading
C0-control-or-space characters are stripped, a scheme is recognised only when
the text before the first `:` starts with an ASCII letter and consists of
scheme characters (and is lower-cased), `//authority` runs until the first of
`/ ? #`, the fragment is split at the first `#` and the query at the first
`?`.

CPython raises `ValueError` from `urlsplit` in two situations that the model
maps to `Except.error`: a bracketed (IPv6-literal) authority — real CPython
validates the bracketed address and raises when it is malformed; the model
conservatively reports an error whenever a bracket occurs, and every theorem
below restricts itself to bracket-free input, where the model is exact — and
the NFKC-normalization check `_checknetloc`, which can only fire on non-ASCII
authorities; the model reports an error for any non-ASCII authority, and the
theorems restrict themselves to ASCII input, where the model is again
exact. -/

/-- The characters allowed in a URL scheme — ASCII letters, digits and
`+ - .` (`scheme_chars` in `urllib/parse.py`), by code point. -/
def schemeChar (c : Char) : Bool :=
  decide ((65 ≤ c.toNat ∧ c.toNat ≤ 90) ∨ (97 ≤ c.toNat ∧ c.toNat ≤ 122) ∨
    (48 ≤ c.toNat ∧ c.toNat ≤ 57) ∨ c.toNat = 43 ∨ c.toNat = 45 ∨ c.toNat = 46)

/-- `url[0].isascii() and url[0].isalpha()`: an ASCII letter, by code
point. -/
def asciiAlpha (c : Char) : Bool :=
  decide ((65 ≤ c.toNat ∧ c.toNat ≤ 90) ∨ (97 ≤ c.toNat ∧ c.toNat ≤ 122))

/-- The result of `urllib.parse.urlsplit`. -/
structure SplitParts where
  scheme : List Char
  netloc : List Char
  path : List Char
  query : List Char
  fragment : List Char
deriving Repr, DecidableEq

/-- Scheme recognition step of `urlsplit`: when the text before the first `:`
is a plausible scheme (`i > 0 and url[0].isascii() and url[0].isalpha()` and
all scheme characters), return it lower-cased next to the remainder;
otherwise no scheme. -/
def extractScheme (l : List Char) : List Char × List Char :=
  match splitOnceChar ':' l with
  | none => ([], l)
  | some (pre, rest) =>
    match pre with
    | [] => ([], l)
    | c :: _ =>
      if asciiAlpha c && pre.all schemeChar then (pyLower pre, rest)
      else ([], l)

/-- A character ending the authority component (`_splitnetloc` scans for the
first of `/`, `?`, `#` — code points 47, 63, 35). -/
def netlocEnd (c : Char) : Bool :=
  decide (c.toNat = 47 ∨ c.toNat = 63 ∨ c.toNat = 35)

/-- Fragment and query splitting tail of `urlsplit`: fragment at the first
`#`, then query at the first `?`. -/
def splitTail (scheme netloc rest : List Char) : SplitParts :=
  let fr := match splitOnceChar '#' rest with
    | some p => p
    | none => (rest, [])
  let pq := match splitOnceChar '?' fr.1 with
    | some p => p
    | none => (fr.1, [])
  ⟨scheme, netloc, pq.1, pq.2, fr.2⟩

/-- Authority parsing step of `urlsplit`: when the remainder after the
scheme starts with `//`, split off the netloc (up to the first `/ ? #`) and
apply the bracket and non-ASCII checks; then split fragment and query. -/
def urlsplitAuthority (scheme rest : List Char) : Except String SplitParts :=
  if rest.take 2 = ['/', '/'] then
    let after := rest.drop 2
    let netloc := after.takeWhile (fun c => !netlocEnd c)
    let rest2 := after.dropWhile (fun c => !netlocEnd c)
    if netloc.contains '[' || netloc.contains ']' then
      .error "bracketed host"
    else if !(netloc.all (fun c => c.toNat < 128)) then
      .error "netloc check"
    else
      .ok (splitTail scheme netloc rest2)
  else
    .ok (splitTail scheme [] rest)

/-- `urllib.parse.urlsplit` (see the section comment for the modelling of the
`ValueError` cases). -/
def urlsplitL (url0 : List Char) : Except String SplitParts :=
  let url1 := url0.filter (fun c => !(c = '\t' || c = '\n' || c = '\x0d'))
  let url2 := url1.dropWhile (fun c => c.toNat ≤ 0x20)
  let sp := extractScheme url2
  urlsplitAuthority sp.1 sp.2

/-- `urllib.parse.urlunsplit`. -/
def urlunsplitL (p : SplitParts) : List Char :=
  let url := p.path
  let url :=
    if p.netloc ≠ [] ∨ (url ≠ [] ∧ url.take 2 = ['/', '/']) then
      let url := if url ≠ [] ∧ url.take 1 ≠ ['/'] then '/' :: url else url
      '/' :: '/' :: (p.netloc ++ url)
    else url
  let url := if p.scheme ≠ [] then p.scheme ++ ':' :: url else url
  let url := if p.query ≠ [] then url ++ '?' :: p.query else url
  if p.fragment ≠ [] then url ++ '#' :: p.fragment else url

/-! ### normalize_url (backend/app.py, lines 70–95) -/

/-- Default-port test of `normalize_url`:
`(scheme == "http" and port == "80") or (scheme == "https" and port == "443")`. -/
def isDefaultPort (scheme port : List Char) : Bool :=
  (scheme = "http".data && port = "80".data) ||
  (scheme = "https".data && port = "443".data)

/-- Authority rewrite of `normalize_url`: when the netloc contains `:`, split
at the last `:` into host and port, lower-case the host and drop a default
port; otherwise lower-case the whole netloc. -/
def normNetloc (scheme netloc : List Char) : List Char :=
  if netloc.contains ':' then
    match rsplitOnceChar ':' netloc with
    | some (host, port) =>
      if isDefaultPort scheme port then pyLower host
      else pyLower host ++ ':' :: port
    | none => pyLower netloc
  else pyLower netloc

/-- `normalize_url` from `backend/app.py`: strip, split, lower-case scheme
(defaulting to `http`) and host, strip default ports, default the path to
`/`, keep the query, drop the fragment, reassemble.  An error from the
underlying `urlsplit` propagates (a `ValueError` in Python). -/
def normalizeUrlL (raw0 : List Char) : Except String (List Char) :=
  let raw := pyStrip raw0
  if raw = [] then .ok raw
  else
    match urlsplitL raw with
    | .error e => .error e
    | .ok parts =>
      let scheme := pyLower (if parts.scheme = [] then "http".data else parts.scheme)
      let netloc := normNetloc scheme parts.netloc
      let path := if parts.path = [] then ['/'] else parts.path
      .ok (urlunsplitL ⟨scheme, netloc, path, parts.query, []⟩)

/-- `normalize_url` on `String`. -/
def normalize_url (raw : String) : Except String String :=
  (normalizeUrlL raw.data).map fun l => ⟨l⟩

/-! ### String-level Python helpers used by the pipeline code -/

/-- Python `a or b` on strings: `b` when `a` is empty (falsy), else `a`. -/
def pyOrS (a b : String) : String := if a = "" then b else a

/-- Python `str.strip()` on `String`. -/
def pyStripS (s : String) : String := ⟨pyStrip s.data⟩

/-- Python `str.lower()` on `String`. -/
def pyLowerS (s : String) : String := ⟨pyLower s.data⟩

/-- Python slicing `s[:n]` (by code points). -/
def pyTakeS (n : Nat) (s : String) : String := ⟨s.data.take n⟩

/-- Python `s.startswith(pre)`. -/
def pyStartsWith (s pre : String) : Bool := pre.data.isPrefixOf s.data

/-- Python `s.split("…")` with a one-character separator: keeps empty fields
(`"".split("/") == [""]`). -/
def pySplitAllChar (c : Char) : List Char → List (List Char)
  | [] => [[]]
  | a :: l =>
    match pySplitAllChar c l with
    | [] => [[]]
    | w :: ws => if a = c then [] :: w :: ws else (a :: w) :: ws

/-- Python `str.title()` (ASCII model): a letter is upper-cased when the
previous character is not a letter and lower-cased otherwise.  Used by
`ai_enrich` on the category returned by the enrichment service. -/
def pyTitleAux : Bool → List Char → List Char
  | _, [] => []
  | prev, c :: cs =>
    (if c.isAlpha then (if prev then c.toLower else c.toUpper) else c) ::
      pyTitleAux c.isAlpha cs

/-- Python `str.title()` on `String`. -/
def pyTitleS (s : String) : String := ⟨pyTitleAux false s.data⟩

/-- Collapse whitespace: `" ".join(s.split())`. -/
def collapseWs (s : String) : String :=
  String.intercalate " " ((pyWords s.data).map fun w => ⟨w⟩)

/-! ### Data model (backend/app.py, `Link` and `LinkTag`)

Rows of the `links` and `link_tags` tables.  `DateTime` columns are modelled
as `Nat` instants; SQLAlchemy's `default`/`onupdate=now_utc` behaviour is
made explicit by threading the current instant `now` through the
operations. -/

/-- A row of the `links` table (`Link` in `backend/app.py`). -/
structure LinkRow where
  id : Nat
  userId : Nat
  url : String
  urlHash : String
  normalizedUrl : String
  normalizedUrlHash : String
  title : String
  summary : String
  category : String
  /-- `queued`, `processing`, `ready` or `error`. -/
  status : String
  createdAt : Nat
  updatedAt : Nat
deriving Repr, DecidableEq

/-- A row of the `link_tags` table (`LinkTag` in `backend/app.py`). -/
structure TagRow where
  id : Nat
  linkId : Nat
  name : String
  /-- `user` or `system`. -/
  submittedBy : String
deriving Repr, DecidableEq

/-- The database state: the two tables and their autoincrement counters. -/
structure DB where
  links : List LinkRow
  tags : List TagRow
  nextLinkId : Nat
  nextTagId : Nat
deriving Repr, DecidableEq

/-- `db.get(Link, link_id)`: primary-key lookup. -/
def findLink (db : DB) (linkId : Nat) : Option LinkRow :=
  db.links.find? fun l => l.id = linkId

/-- Replace the first row carrying the given primary key (an ORM mutation of
the row fetched by primary key, followed by a commit). -/
def setLink : List LinkRow → Nat → LinkRow → List LinkRow
  | [], _, _ => []
  | r :: rs, linkId, r' => if r.id = linkId then r' :: rs else r :: setLink rs linkId r'

/-- The column triple covered by `UniqueConstraint("link_id", "name",
"submitted_by", name="uq_link_tag_name_role")` on `link_tags`. -/
def tagKey (t : TagRow) : Nat × String × String := (t.linkId, t.name, t.submittedBy)

/-- Whether inserting `row` into `links` violates a declared uniqueness
constraint of that table.  The source *comments out* the
`UniqueConstraint("user_id", "url_hash", name="uq_user_url")` block
(`backend/app.py` lines 134–136), so the created table carries no uniqueness
constraint besides the primary key and an insert with a fresh id never
raises `IntegrityError`. -/
def linkInsertViolates (_db : DB) (_row : LinkRow) : Bool := false

/-! ### enqueue_link (backend/app.py, lines 352–383)

`sha256_hex` is kept abstract: the operations are parametrised by the hash
function `hashFn`, and no theorem below relies on anything beyond its
determinism. -/

/-- `enqueue_link(db, user_id, url, title)`: trim the URL (400 error when
empty), normalize and hash it, insert a fresh `queued` row; on
`IntegrityError` look up and return the existing `(user_id, url_hash)` row's
id.  A `ValueError` escaping `normalize_url` propagates. -/
def enqueue_link (hashFn : String → String) (now : Nat) (db : DB)
    (userId : Nat) (url : String) (title : String) : Except String (Nat × DB) :=
  let urlClean := pyStripS url
  if urlClean = "" then .error "url required"
  else
    match normalize_url urlClean with
    | .error e => .error e
    | .ok normalized =>
      let urlHash := hashFn urlClean
      let normalizedHash := if normalized = "" then "" else hashFn normalized
      let row : LinkRow :=
        { id := db.nextLinkId, userId := userId, url := urlClean, urlHash := urlHash
          normalizedUrl := normalized, normalizedUrlHash := normalizedHash
          title := title, summary := "", category := "", status := "queued"
          createdAt := now, updatedAt := now }
      if linkInsertViolates db row then
        -- except IntegrityError: rollback and return the existing row's id
        match db.links.find? (fun l => l.userId = userId && l.urlHash = urlHash) with
        | some l => .ok (l.id, db)
        | none => .error "IntegrityError"
      else
        .ok (row.id, { db with links := db.links ++ [row], nextLinkId := db.nextLinkId + 1 })

/-! ### The claim step of worker_loop (backend/app.py, lines 424–434) -/

/-- `SELECT … WHERE status = 'queued' ORDER BY created_at ASC LIMIT 1`:
index and value of the first queued row with minimal `created_at` (ties in
`created_at` resolve to table order, which is how SQLite serves the
query). -/
def claimNextAux : List LinkRow → Option (Nat × LinkRow)
  | [] => none
  | r :: rs =>
    let rest := (claimNextAux rs).map fun p => (p.1 + 1, p.2)
    if r.status = "queued" then
      match rest with
      | some (j, m) => if m.createdAt < r.createdAt then some (j, m) else some (0, r)
      | none => some (0, r)
    else rest

/-- The claim step of `worker_loop`: fetch the oldest queued row, mark it
`processing` and commit (the `onupdate=now_utc` column default bumps
`updated_at`).  Returns the claimed row (as mutated) and the new state;
`none` when no queued row exists. -/
def claim_next (now : Nat) (db : DB) : Option LinkRow × DB :=
  match claimNextAux db.links with
  | none => (none, db)
  | some (i, r) =>
    let r' := { r with status := "processing", updatedAt := now }
    (some r', { db with links := db.links.set i r' })

/-- The state the `except` branch of `worker_loop` intends to produce: fetch
the link by id and mark it `error` (no-op when the row is gone).  This is
what `exceptBranch` computes — but only on a usable session; see below. -/
def markError (now : Nat) (db : DB) (linkId : Nat) : DB :=
  match findLink db linkId with
  | none => db
  | some l =>
    { db with links := setLink db.links linkId { l with status := "error", updatedAt := now } }

/-- `Session.get` on a session in the state a failed flush leaves it in:
after a `commit` raises, SQLAlchemy rolls the transaction back but requires
an explicit `Session.rollback()` before the session is used again — until
then every session operation raises `PendingRollbackError` (modelled as
`Except.error`). -/
def sessionGet (pendingRollback : Bool) (db : DB) (linkId : Nat) :
    Except Unit (Option LinkRow) :=
  if pendingRollback then .error () else .ok (findLink db linkId)

/-- `Session.commit` on a possibly poisoned session: raises
`PendingRollbackError` when a previous flush failure was never rolled
back. -/
def sessionCommit (pendingRollback : Bool) (db : DB) : Except Unit DB :=
  if pendingRollback then .error () else .ok db

/-- The `except` branch of `worker_loop` (backend/app.py lines 442–447),
run on the session in whatever state `_process_one` left it:
`l2 = s.get(Link, link.id)`; if the row is there, set its status to
`error`, bump `updated_at`, and `s.commit()`.  The branch contains no
`s.rollback()`, so when the caught exception was a commit failure the
session is still pending rollback and the very first `s.get` raises
`PendingRollbackError`, which propagates out of the handler. -/
def exceptBranch (pendingRollback : Bool) (now : Nat) (db : DB) (linkId : Nat) :
    Except Unit DB :=
  match sessionGet pendingRollback db linkId with
  | .error () => .error ()
  | .ok none => .ok db
  | .ok (some l2) =>
    sessionCommit pendingRollback
      { db with links :=
          setLink db.links linkId { l2 with status := "error", updatedAt := now } }

/-! ### Fetch guard (backend/utils.py, lines 4–28)

The network is passed in explicitly: `Resolver` models
`socket.getaddrinfo` (already parsed into addresses — `ipaddress.ip_address`
applied to a `getaddrinfo` result is the identity on the address value), and
`HttpGet` models an HTTP client `get` with redirects already followed.  An
`Except.error` models the call raising. -/

/-- A resolved network address: IPv4 (value < 2^32) or IPv6 (value < 2^128). -/
inductive IpAddr where
  | v4 (n : Nat)
  | v6 (n : Nat)
deriving Repr, DecidableEq

/-- A CIDR network: version flag, network address value, routing prefix
length. -/
structure IpNet where
  isV6 : Bool
  addr : Nat
  len : Nat
deriving Repr, DecidableEq

/-- `ip in net` (ipaddress semantics): same version and the same topmost
`len` bits. -/
def ipInNet (ip : IpAddr) (net : IpNet) : Bool :=
  match ip with
  | .v4 n => !net.isV6 && decide (n / 2 ^ (32 - net.len) = net.addr / 2 ^ (32 - net.len))
  | .v6 n => net.isV6 && decide (n / 2 ^ (128 - net.len) = net.addr / 2 ^ (128 - net.len))

/-- `PRIVATE_NETS` from `backend/utils.py`, each CIDR string rendered as a
numeric network:
`10.0.0.0/8` (10·2^24), `172.16.0.0/12` (172·2^24 + 16·2^16),
`192.168.0.0/16` (192·2^24 + 168·2^16), `127.0.0.0/8` (127·2^24),
`169.254.0.0/16` (169·2^24 + 254·2^16), `::1/128`, `fc00::/7` (0xfc·2^120),
`fe80::/10` (0xfe80·2^112). -/
def PRIVATE_NETS : List IpNet :=
  [ ⟨false, 10 * 2 ^ 24, 8⟩
  , ⟨false, 172 * 2 ^ 24 + 16 * 2 ^ 16, 12⟩
  , ⟨false, 192 * 2 ^ 24 + 168 * 2 ^ 16, 16⟩
  , ⟨false, 127 * 2 ^ 24, 8⟩
  , ⟨false, 169 * 2 ^ 24 + 254 * 2 ^ 16, 16⟩
  , ⟨true, 1, 128⟩
  , ⟨true, 0xfc * 2 ^ 120, 7⟩
  , ⟨true, 0xfe80 * 2 ^ 112, 10⟩ ]

/-- `socket.getaddrinfo(host, None)`, returning parsed addresses; an error
models the lookup raising. -/
abbrev Resolver := String → Except Unit (List IpAddr)

/-- An HTTP response as the source consumes it. -/
structure HttpResp where
  statusCode : Nat
  contentType : String
  text : String
deriving Repr, DecidableEq

/-- `client.get(url)` (redirects already followed); an error models the call
raising. -/
abbrev HttpGet := String → Except Unit HttpResp

/-- `is_private_host` from `backend/utils.py`: `True` when any resolved
address of the host falls in `PRIVATE_NETS`, and `True` (fail closed) when
resolution raises. -/
def is_private_host (resolve : Resolver) (host : String) : Bool :=
  match resolve host with
  | .error _ => true
  | .ok infos => infos.any fun ip => PRIVATE_NETS.any fun net => ipInNet ip net

/-- The host extraction of `utils.fetch_html`:
`url.split("/")[2].split("@")[-1].split(":")[0]` (index 2 exists whenever the
scheme guard has passed). -/
def hostOf (url : String) : String :=
  let part2 := (pySplitAllChar '/' url.data).getD 2 []
  let afterAt := ((pySplitAllChar '@' part2).getLast?).getD []
  ⟨((pySplitAllChar ':' afterAt).head?).getD []⟩

/-- The outcomes of `utils.fetch_html` raising: bad scheme, blocked host,
`raise_for_status` on a 4xx/5xx response, or the client call itself
raising. -/
inductive FetchErr where
  | invalidScheme
  | blockedHost
  | httpStatus
  | network
deriving Repr, DecidableEq

namespace Utils

/-- `fetch_html` from `backend/utils.py` (the SSRF fetch guard): reject
non-http(s) schemes, reject private hosts *before* any network request, then
GET, `raise_for_status`, and truncate the body to `max_bytes = 2_000_000`.
Every rejection *raises* (`Except.error`); this function never returns empty
content for a blocked host. -/
def fetch_html (resolve : Resolver) (get : HttpGet) (url : String) :
    Except FetchErr String :=
  if !(pyStartsWith url "http://" || pyStartsWith url "https://") then
    .error .invalidScheme
  else if is_private_host resolve (hostOf url) then
    .error .blockedHost
  else
    match get url with
    | .error _ => .error .network
    | .ok r =>
      if 400 ≤ r.statusCode then .error .httpStatus
      else .ok (pyTakeS 2000000 r.text)

end Utils

/-! ### Content extraction

`BeautifulSoup` parsing is abstracted into the `Soup` value a parser
produces; the extraction logic the source runs *on* the parse is embedded
exactly.  A field is the empty string when the corresponding node or
attribute is absent (Python's `or`-chains treat the two identically). -/

/-- The parts of a parsed document that the two extractors read.
`bodyText` is `soup.get_text(" ")` after `script`/`style`/`noscript`
subtrees are dropped; `paragraphs` are the whitespace-normalised texts of
the `p` elements in document order. -/
structure Soup where
  titleString : String
  ogTitle : String
  metaDescription : String
  ogDescription : String
  paragraphs : List String
  bodyText : String
deriving Repr, DecidableEq

/-- A parser from markup to its parse: models `BeautifulSoup(html,
"html.parser")` plus the node lookups. -/
abbrev HtmlParse := String → Soup

/-- The post-parse logic of `_extract_text_from_html` (backend/app.py,
lines 241–262): title from the `title` element first, else from `og:title`;
description from `meta name="description"`, else the first 8 paragraph
texts joined by spaces. -/
def extractFromSoup (soup : Soup) : String × String :=
  let title := pyStripS soup.titleString
  let title := if title = "" then pyStripS soup.ogTitle else title
  let desc := pyStripS soup.metaDescription
  let desc :=
    if desc = "" then pyStripS (String.intercalate " " (soup.paragraphs.take 8))
    else desc
  (title, desc)

/-- `_extract_text_from_html` from `backend/app.py`: empty markup
short-circuits to empty results without parsing. -/
def extractTextFromHtml (parse : HtmlParse) (html : String) : String × String :=
  if html = "" then ("", "")
  else extractFromSoup (parse html)

namespace Utils

/-- `extract_content` from `backend/utils.py`: title from `og:title` first,
else the `title` element, else the supplied hint; description from
`og:description`; body = whitespace-collapsed visible text.  Title and
description are capped at 300 and 500 characters. -/
def extract_content (soup : Soup) (titleHint : String) : String × String × String :=
  let title := pyOrS soup.ogTitle (pyOrS soup.titleString titleHint)
  let desc := soup.ogDescription
  let body := collapseWs soup.bodyText
  (pyTakeS 300 title, pyTakeS 500 desc, body)

end Utils

/-! ### The app fetch (backend/app.py, lines 210–223) -/

namespace App

/-- `fetch_html` from `backend/app.py` — the fetch the backend worker loop
actually uses: GET the URL, return `""` when the response looks non-HTML
(neither a `text/html` content type nor an `<html` marker in the lowered
body) and `""` on *any* exception; otherwise return the body.  Note that it
performs no host checking of any kind. -/
def fetch_html (get : HttpGet) (url : String) : String :=
  match get url with
  | .error _ => ""
  | .ok r =>
    if !containsSeq "text/html".data r.contentType.data
        && !containsSeq "<html".data (pyLower r.text.data) then ""
    else r.text

end App

/-! ### Enrichment (backend/app.py, lines 225–345) -/

/-- CPython `round(wc / 200)` as a `Nat` computation.  Python divides in
binary floating point and rounds half to even; for a word count `wc`, the
halfway cases `wc ≡ 100 (mod 200)` give a dyadic rational `k + 1/2` that the
float division returns exactly, and away from the halfway cases the
correctly-rounded float quotient rounds to the same integer as the exact
rational for every realistic word count, so the integer computation below
agrees with CPython. -/
def pyRoundDiv200 (wc : Nat) : Nat :=
  let q := wc / 200
  let r := wc % 200
  if r < 100 then q
  else if 100 < r then q + 1
  else if q % 2 = 0 then q else q + 1

/-- `calculate_reading_time` from `backend/app.py`: 1 for empty text,
otherwise `max(1, round(word_count / 200))` at 200 words per minute. -/
def calculate_reading_time (text : String) : Nat :=
  if text = "" then 1
  else max 1 (pyRoundDiv200 (pyWords text.data).length)

/-- The reading-time marker without its trailing space:
`"[<n> min read]"` (the `startswith` guardrail checks this form). -/
def readMarker (n : Nat) : String := "[" ++ toString n ++ " min read]"

/-- What the enrichment service call produced, once the transport and the
JSON parsing (strict parse, then brace-span salvage) are behind us: the
`summary`/`category`/`tags` fields of the parsed object. -/
structure AiData where
  summary : String
  category : String
  tags : List String
deriving Repr, DecidableEq

/-- The enrichment service as `ai_enrich` observes it: `none` when no client
is configured (`_openai_client` is `None` / no API key), `some (.error _)`
when the chat-completion call raises, `some (.ok d)` when it returns and
parsing yields `d`. -/
abbrev Enricher := Option (Except Unit AiData)

/-- The deterministic fallback summary of `ai_enrich`:
`f"[{reading_time} min read] " + ((context_text[:340] + "…") if context_text
else (title or url))`. -/
def fallbackSummary (readingTime : Nat) (url title contextText : String) : String :=
  readMarker readingTime ++ " " ++
    (if contextText ≠ "" then pyTakeS 340 contextText ++ "…" else pyOrS title url)

/-- `ai_enrich` from `backend/app.py`: returns `(summary, category, tags)`.
Unconfigured service or a raising call produce the deterministic fallback
triple; a parsed response goes through the guardrails (empty summary →
fallback text; missing reading-time marker → prepended; blank category →
`"Other"`, otherwise title-cased; tags stripped, filtered to non-empty,
lower-cased, capped at 40 characters and at most 6 tags).  Total: no path
raises. -/
def ai_enrich (svc : Enricher) (url title contextText : String) :
    String × String × List String :=
  let readingTime := calculate_reading_time contextText
  match svc with
  | none => (fallbackSummary readingTime url title contextText, "Other", [])
  | some (.error _) => (fallbackSummary readingTime url title contextText, "Other", [])
  | some (.ok data) =>
    let summary := pyStripS data.summary
    let category := pyTitleS (pyStripS data.category)
    let summary :=
      if summary = "" then fallbackSummary readingTime url title contextText
      else if !pyStartsWith summary (readMarker readingTime) then
        readMarker readingTime ++ " " ++ summary
      else summary
    let category := if category = "" then "Other" else category
    let tags := (data.tags.filter fun t => pyStripS t ≠ "").map
      fun t => pyTakeS 40 (pyLowerS (pyStripS t))
    (summary, category, tags.take 6)

/-! ### System-tag upsert and _process_one (backend/app.py, lines 385–411) -/

/-- The names of the link's existing system tags
(`{t.name for t in link.tags if t.submitted_by == "system"}`). -/
def systemTagNames (db : DB) (linkId : Nat) : List String :=
  (db.tags.filter fun t => t.linkId = linkId && t.submittedBy = "system").map (·.name)

/-- Fresh `link_tags` rows for the given names, with consecutive ids. -/
def mkTagRows (startId linkId : Nat) : List String → List TagRow
  | [] => []
  | n :: ns => ⟨startId, linkId, n, "system"⟩ :: mkTagRows (startId + 1) linkId ns

/-- The system-tag upsert block of `_process_one` — the spec's
`replace_system_tags`: insert exactly the proposed names not already present
as system tags of the link; delete nothing. -/
def replace_system_tags (db : DB) (linkId : Nat) (names : List String) : DB :=
  let toAdd := names.filter fun n => !(systemTagNames db linkId).contains n
  { db with
    tags := db.tags ++ mkTagRows db.nextTagId linkId toAdd
    nextTagId := db.nextTagId + toAdd.length }

/-- `_process_one` from `backend/app.py`: fetch (via the app's guard-less
`fetch_html`), extract, enrich, persist content fields, set status `ready`,
insert the new system tags, commit.  The commit raises `IntegrityError`
(modelled as `Except.error`) exactly when the inserted `link_tags` rows
violate the `(link_id, name, submitted_by)` uniqueness constraint. -/
def processOne (parse : HtmlParse) (get : HttpGet) (svc : Enricher)
    (now : Nat) (db : DB) (linkId : Nat) : Except Unit DB :=
  match findLink db linkId with
  | none => .ok db
  | some link =>
    let html := App.fetch_html get link.url
    let te := extractTextFromHtml parse html
    let newTitle := pyOrS link.title te.1
    let enr := ai_enrich svc link.url (pyOrS newTitle link.url) te.2
    let link' := { link with
      title := pyTakeS 512 (pyOrS (pyOrS newTitle link.title) link.url)
      summary := pyOrS enr.1 link.summary
      category := pyOrS enr.2.1 (pyOrS link.category "Other")
      status := "ready"
      updatedAt := now }
    let db' := replace_system_tags
      { db with links := setLink db.links link.id link' } link.id enr.2.2
    if ((db'.tags).map tagKey).Nodup then .ok db' else .error ()

/-! ### The worker loop body (backend/app.py, lines 413–449) -/

/-- One pass of the `while True` body of `worker_loop` after the sleep:
claim the oldest queued link (if none, the iteration leaves the state
unchanged); run `_process_one` on it; when `_process_one` raises, run the
`except` branch.  The only raise site in `_process_one`'s body is its final
`db.commit()` (the app's `fetch_html` soft-fails, the extractor is total,
and `ai_enrich` catches every exception), so the handler always runs on a
session poisoned by a failed commit — hence `exceptBranch true`.  An
`Except.error` result is an exception escaping the iteration: `worker_loop`
has no outer `except`, only `finally: s.close()`, so it kills the task; the
error value carries the database state at that moment (the failed commit
itself was rolled back). -/
def workerStep (parse : HtmlParse) (get : HttpGet) (svc : Enricher)
    (now : Nat) (db : DB) : Except DB DB :=
  match claim_next now db with
  | (none, db') => .ok db'
  | (some link, db') =>
    match processOne parse get svc now db' link.id with
    | .ok db'' => .ok db''
    | .error _ =>
      match exceptBranch true now db' link.id with
      | .ok db'' => .ok db''
      | .error () => .error db'

/-- `n` iterations of the worker loop body: the loop continues while each
iteration completes, and an exception escaping an iteration ends the task
with the state it crashed in. -/
def workerLoopN (parse : HtmlParse) (get : HttpGet) (svc : Enricher)
    (now : Nat) : Nat → DB → Except DB DB
  | 0, db => .ok db
  | n + 1, db =>
    match workerStep parse get svc now db with
    | .ok db' => workerLoopN parse get svc now n db'
    | .error db' => .error db'

/-! ### Concrete scenario values used by counterexamples and witnesses -/

/-- A fresh database: no rows, autoincrement counters at 1. -/
def emptyDB : DB := ⟨[], [], 1, 1⟩

/-- A resolver for the spec's test hosts: `127.0.0.1` resolves to itself
(127·2^24+1), `10.1.2.3` to 10·2^24+2^16+2·2^8+3, `169.254.169.254` to the
metadata-service address, `example.com` to the public 93.184.216.34; other
lookups raise. -/
def resolverDemo : Resolver := fun h =>
  if h = "127.0.0.1" then .ok [.v4 (127 * 2 ^ 24 + 1)]
  else if h = "10.1.2.3" then .ok [.v4 (10 * 2 ^ 24 + 1 * 2 ^ 16 + 2 * 2 ^ 8 + 3)]
  else if h = "169.254.169.254" then .ok [.v4 (169 * 2 ^ 24 + 254 * 2 ^ 16 + 169 * 2 ^ 8 + 254)]
  else if h = "example.com" then .ok [.v4 (93 * 2 ^ 24 + 184 * 2 ^ 16 + 216 * 2 ^ 8 + 34)]
  else .error ()

/-- The body served by the demo HTTP client. -/
def publicHtml : String := "<html>public page</html>"

/-- An HTTP client that answers every GET with a 200 `text/html` page. -/
def getDemo : HttpGet := fun _ => .ok ⟨200, "text/html", publicHtml⟩

/-- A parser producing a parse of `publicHtml`: no title, no metadata, and
the meta description "public page". -/
def parseDemo : HtmlParse := fun _ => ⟨"", "", "public page", "", [], ""⟩

/-- One queued link pointing at the loopback address. -/
def dbLoopback : DB :=
  ⟨[⟨1, 7, "http://127.0.0.1/", "h1", "", "", "", "", "", "queued", 0, 0⟩], [], 2, 1⟩

/-! ### C1 — enqueue dedup invariant -/

/-- C1.  The claim: at most one `Link` row exists per (owner, raw-URL-hash),
and a second `enqueue` of the same raw URL by the same owner returns the
existing row's id.  The code violates it: the `UniqueConstraint("user_id",
"url_hash")` is commented out (backend/app.py lines 134–136), so the second
`enqueue_link` commits a second row and returns a fresh id — for any hash
function, enqueueing `http://example.com/` twice for owner 7 yields ids 1
then 2 and leaves two rows with the same owner and raw-URL-hash. -/
theorem enqueue_link_duplicates_rows (hashFn : String → String) :
    ∃ db1 db2 r1 r2,
      enqueue_link hashFn 1 emptyDB 7 "http://example.com/" "" = .ok (1, db1) ∧
      enqueue_link hashFn 2 db1 7 "http://example.com/" "" = .ok (2, db2) ∧
      db2.links = [r1, r2] ∧ r1.id = 1 ∧ r2.id = 2 ∧
      r1.userId = 7 ∧ r2.userId = 7 ∧ r1.urlHash = r2.urlHash := by
  exact ⟨_, _, _, _, rfl, rfl, rfl, rfl, rfl, rfl, rfl, rfl⟩

/-! ### C2 — SSRF rejection -/

/-- C2, counterexample.  The claim says the fetch performed by the pipeline
rejects `http://127.0.0.1/` instead of issuing the GET.  The backend
pipeline's fetch (`fetch_html` in backend/app.py, the one `_process_one`
calls) performs no host check: on `http://127.0.0.1/` it returns the body
that the GET produced, and the worker loop carries that link to `ready`
with a summary built from the fetched loopback content. -/
theorem app_fetch_does_not_block_loopback :
    App.fetch_html getDemo "http://127.0.0.1/" = publicHtml ∧ publicHtml ≠ "" ∧
    ∃ dbx l, workerStep parseDemo getDemo none 1 dbLoopback = .ok dbx ∧
      findLink dbx 1 = some l ∧
      l.status = "ready" ∧ l.summary = "[1 min read] public page…" := by
  exact ⟨rfl, by decide,
    ⟨[⟨1, 7, "http://127.0.0.1/", "h1", "", "", "http://127.0.0.1/",
      "[1 min read] public page…", "Other", "ready", 0, 1⟩], [], 2, 1⟩,
    ⟨1, 7, "http://127.0.0.1/", "h1", "", "", "http://127.0.0.1/",
      "[1 min read] public page…", "Other", "ready", 0, 1⟩, rfl, rfl, rfl, rfl⟩

/-- C2, amended.  The SSRF rejection holds of the fetch guard in
`backend/utils.py` (`is_private_host` + `fetch_html`), not of the backend
app's fetch: whenever any resolved address of a URL's host lies in a private,
loopback, link-local or unique-local range, `utils.fetch_html` raises
`blocked host` identically for every HTTP client — the GET is never
consulted — and concretely it blocks `http://127.0.0.1/`, `http://10.1.2.3/`
and `http://169.254.169.254/` while fetching `http://example.com/`. -/
theorem utils_fetch_blocks_private_hosts
    (resolve : Resolver) (url : String) (ips : List IpAddr) (ip : IpAddr) (net : IpNet)
    (hscheme : (pyStartsWith url "http://" || pyStartsWith url "https://") = true)
    (hres : resolve (hostOf url) = .ok ips)
    (hip : ip ∈ ips) (hnet : net ∈ PRIVATE_NETS) (hin : ipInNet ip net = true) :
    (∀ get : HttpGet, Utils.fetch_html resolve get url = .error .blockedHost) ∧
    Utils.fetch_html resolverDemo getDemo "http://127.0.0.1/" = .error .blockedHost ∧
    Utils.fetch_html resolverDemo getDemo "http://10.1.2.3/" = .error .blockedHost ∧
    Utils.fetch_html resolverDemo getDemo "http://169.254.169.254/" = .error .blockedHost ∧
    Utils.fetch_html resolverDemo getDemo "http://example.com/" = .ok publicHtml := by
  refine ⟨?_, rfl, rfl, rfl, rfl⟩
  intro get
  have hpriv : is_private_host resolve (hostOf url) = true := by
    simp only [is_private_host, hres, List.any_eq_true]
    exact ⟨ip, hip, net, hnet, hin⟩
  simp only [Utils.fetch_html, hscheme, hpriv]
  rfl

/-- Witness for `utils_fetch_blocks_private_hosts` at `http://127.0.0.1/`
with the demo resolver. -/
theorem utils_fetch_blocks_private_hosts_witness :
    (∀ get : HttpGet,
      Utils.fetch_html resolverDemo get "http://127.0.0.1/" = .error .blockedHost) ∧
    Utils.fetch_html resolverDemo getDemo "http://127.0.0.1/" = .error .blockedHost := by
  have h := utils_fetch_blocks_private_hosts resolverDemo "http://127.0.0.1/"
    [.v4 (127 * 2 ^ 24 + 1)] (.v4 (127 * 2 ^ 24 + 1)) ⟨false, 127 * 2 ^ 24, 8⟩
    (by decide) rfl (by decide) (by decide) (by decide)
  exact ⟨h.1, h.2.1⟩

/-! ### C3 — soft-failing fetch -/

/-- C3, counterexample.  The claim says a blocked fetch returns empty
content rather than raising.  The fetch guard in `backend/utils.py` does the
opposite: on `http://127.0.0.1/` it raises (`blocked host`) and in
particular never returns `.ok` content, empty or otherwise. -/
theorem utils_fetch_raises_when_blocked :
    Utils.fetch_html resolverDemo getDemo "http://127.0.0.1/" = .error .blockedHost ∧
    ∀ s : String, Utils.fetch_html resolverDemo getDemo "http://127.0.0.1/" ≠ .ok s := by
  refine ⟨rfl, fun s h => ?_⟩
  rw [show Utils.fetch_html resolverDemo getDemo "http://127.0.0.1/"
        = .error .blockedHost from rfl] at h
  exact Except.noConfusion h

/-- `pyOrS s "" = s`. -/
theorem pyOrS_empty_right (s : String) : pyOrS s "" = s := by
  by_cases h : s = "" <;> simp [pyOrS, h]

/-- `pyOrS s s = s`. -/
theorem pyOrS_self (s : String) : pyOrS s s = s := by
  by_cases h : s = "" <;> simp [pyOrS, h]

/-- `pyOrS` keeps a non-empty first argument. -/
theorem pyOrS_of_ne_empty (s t : String) (h : s ≠ "") : pyOrS s t = s := by
  simp [pyOrS, h]

/-- The fallback summary is never the empty string (it starts with the
reading-time marker). -/
theorem fallbackSummary_ne_empty (n : Nat) (url title contextText : String) :
    fallbackSummary n url title contextText ≠ "" := by
  intro h
  have hd := congrArg String.data h
  simp only [fallbackSummary, readMarker, String.data_append] at hd
  simp at hd

/-- `List.find?` returns an element satisfying its predicate; replacing the
first row with a given id keeps it findable. -/
theorem find_setLink (ls : List LinkRow) (n : Nat) (x r' : LinkRow)
    (hfind : ls.find? (fun l => l.id = n) = some x) (hid : r'.id = n) :
    (setLink ls n r').find? (fun l => l.id = n) = some r' := by
  induction ls with
  | nil => simp at hfind
  | cons r rs ih =>
    by_cases h : r.id = n
    · simp [setLink, h, List.find?, hid]
    · rw [List.find?] at hfind
      simp only [h, decide_eq_true_eq, decide_False] at hfind
      simp only [setLink, if_neg h, List.find?, decide_eq_true_eq, if_neg h]
      rw [decide_eq_false h]
      exact ih hfind

/-- C3, amended.  The *backend app's* fetch degrades softly: any raising GET
yields empty content, and a claimed link whose fetch raised still completes
`_process_one` with status `ready` and the deterministic fallback summary
(no enrichment service configured) — while the fetch guard in
`backend/utils.py` instead raises `blocked host` for every URL whose host
resolves privately. -/
theorem failed_fetch_degrades_to_ready
    (parse : HtmlParse) (get : HttpGet) (now : Nat) (db : DB)
    (linkId : Nat) (link : LinkRow)
    (hfind : findLink db linkId = some link)
    (hget : get link.url = .error ())
    (htags : (db.tags.map tagKey).Nodup) :
    App.fetch_html get link.url = "" ∧
    (∃ db' link', processOne parse get none now db linkId = .ok db' ∧
      findLink db' linkId = some link' ∧ link'.status = "ready" ∧
      link'.summary =
        fallbackSummary (calculate_reading_time "") link.url (pyOrS link.title link.url) "") ∧
    (∀ (resolve : Resolver) (g : HttpGet) (u : String),
      is_private_host resolve (hostOf u) = true →
      (pyStartsWith u "http://" || pyStartsWith u "https://") = true →
      Utils.fetch_html resolve g u = .error .blockedHost) := by
  have happ : App.fetch_html get link.url = "" := by
    simp [App.fetch_html, hget]
  have hlid : link.id = linkId := by
    have := List.find?_some hfind
    simpa using this
  set linkR : LinkRow :=
    { link with
      title := pyTakeS 512 (pyOrS link.title link.url)
      summary := fallbackSummary (calculate_reading_time "") link.url (pyOrS link.title link.url) ""
      category := "Other"
      status := "ready"
      updatedAt := now } with hlinkR
  have hstep : processOne parse get none now db linkId =
      .ok { db with links := setLink db.links link.id linkR } := by
    simp only [processOne, hfind, happ]
    have h0 : extractTextFromHtml parse "" = ("", "") := rfl
    rw [h0]
    simp only [ai_enrich, pyOrS_empty_right, pyOrS_self]
    have hfb : pyOrS
        (fallbackSummary (calculate_reading_time "") link.url (pyOrS link.title link.url) "")
        link.summary
        = fallbackSummary (calculate_reading_time "") link.url (pyOrS link.title link.url) "" :=
      pyOrS_of_ne_empty _ _ (fallbackSummary_ne_empty _ _ _ _)
    have hoth : pyOrS "Other" (pyOrS link.category "Other") = "Other" := rfl
    rw [hfb, hoth]
    simp only [replace_system_tags, systemTagNames, mkTagRows, List.filter_nil,
      List.append_nil, List.length_nil, Nat.add_zero]
    rw [if_pos htags]
  refine ⟨happ, ⟨_, linkR, hstep, ?_, rfl, ?_⟩, ?_⟩
  · show (setLink db.links link.id linkR).find? (fun l => l.id = linkId) = some linkR
    rw [hlid]
    exact find_setLink db.links linkId link linkR hfind hlid
  · rfl
  · intro resolve g u hpriv hscheme
    simp only [Utils.fetch_html, hscheme, hpriv]
    rfl

/-- Witness for `failed_fetch_degrades_to_ready` on a one-link database with
an always-raising HTTP client. -/
theorem failed_fetch_degrades_to_ready_witness :
    (findLink dbLoopback 1 =
        some ⟨1, 7, "http://127.0.0.1/", "h1", "", "", "", "", "", "queued", 0, 0⟩) ∧
    App.fetch_html (fun _ => .error ()) "http://127.0.0.1/" = "" := by
  have h := failed_fetch_degrades_to_ready parseDemo
    (fun _ => .error ()) 3 dbLoopback 1
    ⟨1, 7, "http://127.0.0.1/", "h1", "", "", "", "", "", "queued", 0, 0⟩
    rfl rfl (by decide)
  exact ⟨rfl, h.1⟩

/-! ### C6 — deterministic enrichment fallback -/

/-- C6.  With no enrichment service configured (`none`) or a raising service
call (`some (.error ())`), `ai_enrich` never raises (it is a total function)
and returns exactly the deterministic fallback triple: the
`"[<n> min read] "` marker with `n = max(1, round(word_count / 200))`,
followed by the first 340 characters of the body plus an ellipsis when the
body is non-empty (the title, else the url, when it is empty); category
`"Other"`; no tags. -/
theorem ai_enrich_fallback (svc : Enricher) (url title body : String)
    (h : svc = none ∨ svc = some (.error ())) :
    ai_enrich svc url title body =
      (readMarker (max 1 (pyRoundDiv200 (pyWords body.data).length)) ++ " " ++
        (if body ≠ "" then pyTakeS 340 body ++ "…" else pyOrS title url),
       "Other", []) := by
  have hrt : calculate_reading_time body =
      max 1 (pyRoundDiv200 (pyWords body.data).length) := by
    by_cases hb : body = ""
    · subst hb
      rfl
    · simp [calculate_reading_time, hb]
  rcases h with h | h <;> subst h <;>
    simp only [ai_enrich, fallbackSummary, hrt]

/-- Witness for `ai_enrich_fallback`: no service, empty body — the summary
is the marker plus the title, with no ellipsis. -/
theorem ai_enrich_fallback_witness :
    ((none : Enricher) = none ∨ (none : Enricher) = some (.error ())) ∧
    ai_enrich none "http://e/" "A Title" "" =
      (readMarker (max 1 (pyRoundDiv200 (pyWords "".data).length)) ++ " " ++
        (if ("" : String) ≠ "" then pyTakeS 340 "" ++ "…" else pyOrS "A Title" "http://e/"),
       "Other", []) ∧
    ai_enrich none "http://e/" "A Title" "" = ("[1 min read] A Title", "Other", []) :=
  ⟨Or.inl rfl, ai_enrich_fallback none "http://e/" "A Title" "" (Or.inl rfl), by decide⟩

/-! ### C7 — additive, duplicate-free system-tag upsert -/

/-- The rows `mkTagRows` builds carry exactly the given names. -/
theorem mkTagRows_map_name (s l : Nat) (ns : List String) :
    (mkTagRows s l ns).map (·.name) = ns := by
  induction ns generalizing s with
  | nil => rfl
  | cons n ns ih => simp [mkTagRows, ih]

/-- The constraint keys of the rows `mkTagRows` builds. -/
theorem mkTagRows_map_key (s l : Nat) (ns : List String) :
    (mkTagRows s l ns).map tagKey = ns.map fun n => (l, n, "system") := by
  induction ns generalizing s with
  | nil => rfl
  | cons n ns ih => simp [mkTagRows, tagKey, ih]

/-- Every row `mkTagRows` builds belongs to the given link with origin
`system`. -/
theorem mem_mkTagRows (s l : Nat) (ns : List String) (t : TagRow)
    (h : t ∈ mkTagRows s l ns) : t.linkId = l ∧ t.submittedBy = "system" := by
  induction ns generalizing s with
  | nil => simp [mkTagRows] at h
  | cons n ns ih =>
    simp only [mkTagRows, List.mem_cons] at h
    rcases h with h | h
    · subst h; exact ⟨rfl, rfl⟩
    · exact ih _ h

/-- A name is a system tag of the link iff the corresponding constraint key
occurs in the tag table. -/
theorem systemTagNames_key_mem (db : DB) (l : Nat) (n : String) :
    n ∈ systemTagNames db l ↔
      ((l, n, "system") : Nat × String × String) ∈ db.tags.map tagKey := by
  simp only [systemTagNames, List.mem_map, List.mem_filter, tagKey,
    Bool.and_eq_true, decide_eq_true_eq, Prod.mk.injEq]
  aesop

/-- One `replace_system_tags` call keeps the `(link_id, name, submitted_by)`
uniqueness of the tag table, given duplicate-free proposed names. -/
theorem replace_system_tags_nodup (db : DB) (l : Nat) (ns : List String)
    (h0 : (db.tags.map tagKey).Nodup) (hns : ns.Nodup) :
    ((replace_system_tags db l ns).tags.map tagKey).Nodup := by
  simp only [replace_system_tags, List.map_append, mkTagRows_map_key]
  refine h0.append ((hns.filter _).map ?_) ?_
  · intro a b h
    simpa using h
  · intro k hk hk2
    simp only [List.mem_map, List.mem_filter, Bool.not_eq_true'] at hk2
    rcases hk2 with ⟨n, ⟨hmemn, hnotin⟩, rfl⟩
    rw [← systemTagNames_key_mem] at hk
    simp [hk] at hnotin

/-- The system-tag names after a call are the old ones together with the
proposed ones. -/
theorem systemTagNames_replace (db : DB) (l : Nat) (ns : List String) (n : String) :
    n ∈ systemTagNames (replace_system_tags db l ns) l ↔
      n ∈ systemTagNames db l ∨ n ∈ ns := by
  rw [systemTagNames_key_mem]
  simp only [replace_system_tags, List.map_append, List.mem_append, mkTagRows_map_key]
  rw [← systemTagNames_key_mem]
  constructor
  · rintro (h | h)
    · exact Or.inl h
    · simp only [List.mem_map, List.mem_filter] at h
      rcases h with ⟨m, ⟨hm, _⟩, hk⟩
      simp only [Prod.mk.injEq] at hk
      exact Or.inr (hk.2.1 ▸ hm)
  · rintro (h | h)
    · exact Or.inl h
    · by_cases hin : n ∈ systemTagNames db l
      · exact Or.inl hin
      · refine Or.inr ?_
        simp only [List.mem_map, List.mem_filter]
        exact ⟨n, ⟨h, by simp [hin]⟩, rfl⟩

/-- C7.  `replace_system_tags` inserts exactly the set difference between the
proposed names and the link's existing system-tag names, never deletes
(every call only appends to the tag table), is additive-union on the
system-tag name set, and two successive calls with overlapping duplicate-free
name sets leave the `(link_id, name, "system")` keys duplicate-free. -/
theorem replace_system_tags_additive (db : DB) (linkId : Nat) (A B : List String)
    (hA : A.Nodup) (hB : B.Nodup) (h0 : (db.tags.map tagKey).Nodup) :
    (∃ new1, (replace_system_tags db linkId A).tags = db.tags ++ new1 ∧
      new1.map (·.name) = A.filter (fun n => !(systemTagNames db linkId).contains n) ∧
      ∀ t ∈ new1, t.linkId = linkId ∧ t.submittedBy = "system") ∧
    (∃ new2, (replace_system_tags (replace_system_tags db linkId A) linkId B).tags
        = (replace_system_tags db linkId A).tags ++ new2) ∧
    (∀ n, n ∈ systemTagNames (replace_system_tags db linkId A) linkId ↔
      n ∈ systemTagNames db linkId ∨ n ∈ A) ∧
    ((replace_system_tags (replace_system_tags db linkId A) linkId B).tags.map tagKey).Nodup := by
  refine ⟨⟨_, rfl, mkTagRows_map_name _ _ _, fun t ht => mem_mkTagRows _ _ _ t ht⟩,
    ⟨_, rfl⟩, fun n => systemTagNames_replace db linkId A n, ?_⟩
  exact replace_system_tags_nodup _ linkId B
    (replace_system_tags_nodup db linkId A h0 hA) hB

/-- Witness for `replace_system_tags_additive`: two overlapping calls on a
link with one pre-existing system tag. -/
theorem replace_system_tags_additive_witness :
    (["a", "b"].Nodup ∧ ["b", "c"].Nodup ∧
      ((⟨[], [⟨1, 5, "a", "system"⟩], 1, 2⟩ : DB).tags.map tagKey).Nodup) ∧
    ((replace_system_tags (replace_system_tags ⟨[], [⟨1, 5, "a", "system"⟩], 1, 2⟩ 5
        ["a", "b"]) 5 ["b", "c"]).tags.map tagKey).Nodup ∧
    (replace_system_tags (replace_system_tags ⟨[], [⟨1, 5, "a", "system"⟩], 1, 2⟩ 5
        ["a", "b"]) 5 ["b", "c"]).tags.map (·.name) = ["a", "b", "c"] := by
  refine ⟨⟨by decide, by decide, by decide⟩, ?_, by decide⟩
  exact (replace_system_tags_additive ⟨[], [⟨1, 5, "a", "system"⟩], 1, 2⟩ 5
    ["a", "b"] ["b", "c"] (by decide) (by decide) (by decide)).2.2.2

/-! ### C8 — title preference order -/

/-- A parse carrying both a document title element and a social-metadata
(`og:title`) title (markup like
`<html><head><title>Doc Title</title><meta property=og:title
content=OG-Title></head></html>`). -/
def soupBothTitles : Soup := ⟨"Doc Title", "OG Title", "", "", [], ""⟩

/-- C8, counterexample.  The claim's preference order (social-metadata title
first) would pick "OG Title"; the backend extractor
`_extract_text_from_html` instead prefers the document title element and
returns "Doc Title". -/
theorem app_extractor_prefers_title_element :
    extractTextFromHtml (fun _ => soupBothTitles) "<html>markup</html>"
      = ("Doc Title", "") ∧
    (extractFromSoup soupBothTitles).1 = "Doc Title" ∧ "Doc Title" ≠ "OG Title" := by
  exact ⟨rfl, rfl, by decide⟩

/-- C8, amended.  The claimed preference order — social-metadata title, then
document title element, then the supplied hint, then empty — holds of
`extract_content` in `backend/utils.py` (whose result is capped at 300
characters); the backend extractor `_extract_text_from_html` uses the
opposite preference between the two markup titles (document title element
first, `og:title` only as fallback) and takes no hint. -/
theorem extract_content_title_order (soup : Soup) (hint : String) :
    (soup.ogTitle ≠ "" →
      (Utils.extract_content soup hint).1 = pyTakeS 300 soup.ogTitle) ∧
    (soup.ogTitle = "" → soup.titleString ≠ "" →
      (Utils.extract_content soup hint).1 = pyTakeS 300 soup.titleString) ∧
    (soup.ogTitle = "" → soup.titleString = "" →
      (Utils.extract_content soup hint).1 = pyTakeS 300 hint) ∧
    (pyStripS soup.titleString ≠ "" →
      (extractFromSoup soup).1 = pyStripS soup.titleString) ∧
    (pyStripS soup.titleString = "" →
      (extractFromSoup soup).1 = pyStripS soup.ogTitle) := by
  refine ⟨fun h1 => ?_, fun h1 h2 => ?_, fun h1 h2 => ?_, fun h1 => ?_, fun h1 => ?_⟩
  · simp [Utils.extract_content, pyOrS, h1]
  · simp [Utils.extract_content, pyOrS, h1, h2]
  · simp [Utils.extract_content, pyOrS, h1, h2]
  · simp [extractFromSoup, h1]
  · simp [extractFromSoup, h1]

/-- Witness for `extract_content_title_order` on a parse with both titles:
`extract_content` picks the social-metadata title. -/
theorem extract_content_title_order_witness :
    soupBothTitles.ogTitle ≠ "" ∧
    (Utils.extract_content soupBothTitles "a hint").1 = pyTakeS 300 soupBothTitles.ogTitle ∧
    (Utils.extract_content soupBothTitles "a hint").1 = "OG Title" := by
  refine ⟨by decide, (extract_content_title_order soupBothTitles "a hint").1 (by decide),
    by decide⟩

/-! ### C4 — the claim step -/

/-- The claim query comes back empty exactly when no row is queued. -/
theorem claimNextAux_eq_none (ls : List LinkRow) :
    claimNextAux ls = none ↔ ∀ r ∈ ls, r.status ≠ "queued" := by
  induction ls with
  | nil => simp [claimNextAux]
  | cons a rs ih =>
    rw [claimNextAux]
    by_cases ha : a.status = "queued"
    · rw [if_pos ha]
      constructor
      · intro h
        rcases hr : (claimNextAux rs).map (fun p => (p.1 + 1, p.2)) with _ | p <;>
          rw [hr] at h
        · exact absurd h (by simp)
        · rcases p with ⟨j, m⟩
          dsimp only at h
          split at h <;> exact Option.noConfusion h
      · intro h
        exact absurd ha (h a (List.mem_cons_self a rs))
    · rw [if_neg ha]
      constructor
      · intro h
        intro r hr
        rcases List.mem_cons.mp hr with rfl | hmem
        · exact ha
        · rcases hcx : claimNextAux rs with _ | p
          · exact (ih.mp hcx) r hmem
          · rw [hcx] at h; simp at h
      · intro h
        have : claimNextAux rs = none :=
          ih.mpr fun r hr => h r (List.mem_cons_of_mem a hr)
        rw [this]; rfl

/-- Specification of the claim query: it returns the position and value of a
queued row of minimal `created_at`, and every strictly earlier queued row has
a strictly larger `created_at` (ties resolve to the first). -/
theorem claimNextAux_spec (ls : List LinkRow) (i : Nat) (r : LinkRow)
    (h : claimNextAux ls = some (i, r)) :
    ls[i]? = some r ∧ r.status = "queued" ∧
    (∀ r' ∈ ls, r'.status = "queued" → r.createdAt ≤ r'.createdAt) ∧
    (∀ j, j < i → ∀ r', ls[j]? = some r' → r'.status = "queued" →
      r.createdAt < r'.createdAt) := by
  induction ls generalizing i r with
  | nil => simp [claimNextAux] at h
  | cons a rs ih =>
    rw [claimNextAux] at h
    by_cases ha : a.status = "queued"
    · rw [if_pos ha] at h
      rcases hr : claimNextAux rs with _ | ⟨j, m⟩ <;> rw [hr] at h
      · simp only [Option.map_none'] at h
        obtain ⟨hi, hv⟩ : 0 = i ∧ a = r := by
          have := Option.some.inj h
          exact ⟨congrArg Prod.fst this, congrArg Prod.snd this⟩
        subst hi; subst hv
        refine ⟨by simp, ha, ?_, by omega⟩
        intro r' hr' hq'
        rcases List.mem_cons.mp hr' with rfl | hmem
        · exact le_refl _
        · exact absurd hq' ((claimNextAux_eq_none rs).mp hr r' hmem)
      · simp only [Option.map_some'] at h
        obtain ⟨hm1, hm2, hm3, hm4⟩ := ih j m hr
        by_cases hlt : m.createdAt < a.createdAt
        · rw [if_pos hlt] at h
          obtain ⟨hi, hv⟩ : j + 1 = i ∧ m = r := by
            have := Option.some.inj h
            exact ⟨congrArg Prod.fst this, congrArg Prod.snd this⟩
          subst hi; subst hv
          refine ⟨by simpa using hm1, hm2, ?_, ?_⟩
          · intro r' hr' hq'
            rcases List.mem_cons.mp hr' with rfl | hmem
            · exact le_of_lt hlt
            · exact hm3 r' hmem hq'
          · intro k hk r' hget hq'
            match k, hk with
            | 0, _ =>
              obtain rfl : a = r' := by simpa using hget
              exact hlt
            | k' + 1, hk =>
              exact hm4 k' (by omega) r' (by simpa using hget) hq'
        · rw [if_neg hlt] at h
          obtain ⟨hi, hv⟩ : 0 = i ∧ a = r := by
            have := Option.some.inj h
            exact ⟨congrArg Prod.fst this, congrArg Prod.snd this⟩
          subst hi; subst hv
          refine ⟨by simp, ha, ?_, by omega⟩
          intro r' hr' hq'
          rcases List.mem_cons.mp hr' with rfl | hmem
          · exact le_refl _
          · exact le_trans (by omega) (hm3 r' hmem hq')
    · rw [if_neg ha] at h
      rcases hr : claimNextAux rs with _ | ⟨j, m⟩ <;> rw [hr] at h
      · simp at h
      · simp only [Option.map_some'] at h
        obtain ⟨hi, hv⟩ : j + 1 = i ∧ m = r := by
          have := Option.some.inj h
          exact ⟨congrArg Prod.fst this, congrArg Prod.snd this⟩
        subst hi; subst hv
        obtain ⟨hm1, hm2, hm3, hm4⟩ := ih j m hr
        refine ⟨by simpa using hm1, hm2, ?_, ?_⟩
        · intro r' hr' hq'
          rcases List.mem_cons.mp hr' with rfl | hmem
          · exact absurd hq' ha
          · exact hm3 r' hmem hq'
        · intro k hk r' hget hq'
          match k, hk with
          | 0, _ =>
            obtain rfl : a = r' := by simpa using hget
            exact absurd hq' ha
          | k' + 1, hk =>
            exact hm4 k' (by omega) r' (by simpa using hget) hq'

/-- C4.  The claim step of the worker loop: it comes back empty exactly when
no queued row exists; otherwise it selects the single oldest queued row
(ties broken by creation order: every strictly earlier queued row is
strictly younger), transitions only that row to `processing` (the state
differs from the old one only at that row's position), and two sequential
claim calls never return the same row — the second call, run on the state
the first produced, returns a row with a different id (the claimed row is no
longer `queued`, so only an intervening reset could surface it again). -/
theorem claim_next_spec (now now' : Nat) (db : DB)
    (hids : (db.links.map (·.id)).Nodup) :
    ((claim_next now db).1 = none ↔ ∀ r ∈ db.links, r.status ≠ "queued") ∧
    (∀ l, (claim_next now db).1 = some l →
      ∃ i r, db.links[i]? = some r ∧ r.status = "queued" ∧
        l = { r with status := "processing", updatedAt := now } ∧
        (∀ r' ∈ db.links, r'.status = "queued" → r.createdAt ≤ r'.createdAt) ∧
        (∀ j, j < i → ∀ r', db.links[j]? = some r' → r'.status = "queued" →
          r.createdAt < r'.createdAt) ∧
        (claim_next now db).2.links
          = db.links.set i { r with status := "processing", updatedAt := now }) ∧
    (∀ l l', (claim_next now db).1 = some l →
      (claim_next now' (claim_next now db).2).1 = some l' → l'.id ≠ l.id) := by
  refine ⟨?_, ?_, ?_⟩
  · rw [claim_next]
    rcases hc : claimNextAux db.links with _ | ⟨i, r⟩
    · simpa using (claimNextAux_eq_none db.links).mp hc
    · simp only []
      constructor
      · intro h; exact absurd h (by simp)
      · intro h
        obtain ⟨h1, h2, _, _⟩ := claimNextAux_spec db.links i r hc
        exact absurd h2 (h r (List.getElem?_mem h1))
  · intro l hl
    rw [claim_next] at hl
    rcases hc : claimNextAux db.links with _ | ⟨i, r⟩
    · rw [hc] at hl; simp at hl
    · rw [hc] at hl
      dsimp only at hl
      rw [Option.some.injEq] at hl
      obtain ⟨h1, h2, h3, h4⟩ := claimNextAux_spec db.links i r hc
      exact ⟨i, r, h1, h2, hl.symm, h3, h4, by rw [claim_next, hc]⟩
  · intro l l' hl hl'
    simp only [claim_next] at hl hl'
    rcases hc : claimNextAux db.links with _ | ⟨i, r⟩
    · rw [hc] at hl; simp at hl
    · rw [hc] at hl hl'
      dsimp only at hl hl'
      rw [Option.some.injEq] at hl
      obtain ⟨h1, h2, _, _⟩ := claimNextAux_spec db.links i r hc
      set r1 := { r with status := "processing", updatedAt := now } with hr1
      rcases hc2 : claimNextAux (db.links.set i r1) with _ | ⟨i2, r2⟩
      · rw [hc2] at hl'; simp at hl'
      · rw [hc2] at hl'
        dsimp only at hl'
        rw [Option.some.injEq] at hl'
        obtain ⟨g1, g2, g3x, g4x⟩ := claimNextAux_spec _ i2 r2 hc2
        have hilen : i < db.links.length := by
          by_contra hge
          rw [List.getElem?_eq_none (by omega)] at h1
          exact Option.noConfusion h1
        have hne : i2 ≠ i := by
          intro hEq
          subst hEq
          rw [List.getElem?_set_self hilen] at g1
          have : r1 = r2 := Option.some.inj g1
          rw [← this] at g2
          exact absurd g2 (by simp [hr1])
        have g1' : db.links[i2]? = some r2 := by
          rwa [List.getElem?_set_ne hne.symm] at g1
        have hi2len : i2 < db.links.length := by
          by_contra hge
          rw [List.getElem?_eq_none (by omega)] at g1'
          exact Option.noConfusion g1'
        subst hl; subst hl'
        show r2.id ≠ r.id
        intro hEq
        have hmapi : (db.links.map (·.id))[i]? = some r.id := by
          rw [List.getElem?_map, h1]; rfl
        have hmapi2 : (db.links.map (·.id))[i2]? = some r2.id := by
          rw [List.getElem?_map, g1']; rfl
        rw [hEq] at hmapi2
        have heq2 : (db.links.map (·.id)).get? i2 = (db.links.map (·.id)).get? i := by
          rw [List.get?_eq_getElem?, List.get?_eq_getElem?, hmapi, hmapi2]
        exact hne (List.get?_inj (by simpa using hi2len) hids heq2)

/-- Witness for `claim_next_spec`: a two-row database where the younger row
was enqueued first; the claim picks the older row (id 2), and a second claim
picks the other row. -/
theorem claim_next_spec_witness :
    (((⟨[⟨1, 7, "u1", "h", "", "", "", "", "", "queued", 9, 9⟩,
        ⟨2, 7, "u2", "h", "", "", "", "", "", "queued", 4, 4⟩], [], 3, 1⟩ : DB).links.map
          (·.id)).Nodup) ∧
    ∀ l, (claim_next 10 ⟨[⟨1, 7, "u1", "h", "", "", "", "", "", "queued", 9, 9⟩,
        ⟨2, 7, "u2", "h", "", "", "", "", "", "queued", 4, 4⟩], [], 3, 1⟩).1 = some l →
      ∃ i r, (⟨[⟨1, 7, "u1", "h", "", "", "", "", "", "queued", 9, 9⟩,
        ⟨2, 7, "u2", "h", "", "", "", "", "", "queued", 4, 4⟩], [], 3, 1⟩ : DB).links[i]?
          = some r ∧ r.status = "queued" ∧
        l = { r with status := "processing", updatedAt := 10 } ∧
        (∀ r' ∈ (⟨[⟨1, 7, "u1", "h", "", "", "", "", "", "queued", 9, 9⟩,
          ⟨2, 7, "u2", "h", "", "", "", "", "", "queued", 4, 4⟩], [], 3, 1⟩ : DB).links,
          r'.status = "queued" → r.createdAt ≤ r'.createdAt) ∧
        (∀ j, j < i → ∀ r', (⟨[⟨1, 7, "u1", "h", "", "", "", "", "", "queued", 9, 9⟩,
          ⟨2, 7, "u2", "h", "", "", "", "", "", "queued", 4, 4⟩], [], 3, 1⟩ : DB).links[j]?
            = some r' → r'.status = "queued" → r.createdAt < r'.createdAt) ∧
        (claim_next 10 ⟨[⟨1, 7, "u1", "h", "", "", "", "", "", "queued", 9, 9⟩,
          ⟨2, 7, "u2", "h", "", "", "", "", "", "queued", 4, 4⟩], [], 3, 1⟩).2.links
          = (⟨[⟨1, 7, "u1", "h", "", "", "", "", "", "queued", 9, 9⟩,
            ⟨2, 7, "u2", "h", "", "", "", "", "", "queued", 4, 4⟩], [], 3, 1⟩ : DB).links.set
              i { r with status := "processing", updatedAt := 10 } := by
  refine ⟨by decide, ?_⟩
  exact (claim_next_spec 10 11 _ (by decide)).2.1

/-! ### C5 — exception handling at the worker loop boundary -/

/-- A list containing an element satisfying the predicate yields some
`find?` result. -/
theorem find_exists_of_mem {α : Type} (p : α → Bool) (ls : List α) (x : α)
    (hx : x ∈ ls) (hp : p x = true) : ∃ y, ls.find? p = some y := by
  induction ls with
  | nil => cases hx
  | cons a rs ih =>
    rcases hpa : p a with _ | _
    · rcases List.mem_cons.mp hx with rfl | hmem
      · exact absurd hp (by simp [hpa])
      · obtain ⟨y, hy⟩ := ih hmem
        exact ⟨y, by rw [List.find?, hpa, hy]⟩
    · exact ⟨a, by rw [List.find?, hpa]⟩

/-- Marking a present link as failed leaves it findable with status
`error`. -/
theorem findLink_markError (now : Nat) (db : DB) (lid : Nat) (x : LinkRow)
    (hx : findLink db lid = some x) :
    ∃ y, findLink (markError now db lid) lid = some y ∧ y.status = "error" := by
  have hxid : x.id = lid := by simpa using List.find?_some hx
  refine ⟨{ x with status := "error", updatedAt := now }, ?_, rfl⟩
  simp only [markError, hx]
  exact find_setLink db.links lid x _ hx hxid

/-- On a healthy session the `except` branch computes exactly `markError`:
the handler is correct for exceptions that did not poison the session. -/
theorem exceptBranch_healthy (now : Nat) (db : DB) (lid : Nat) :
    exceptBranch false now db lid = .ok (markError now db lid) := by
  rcases h : findLink db lid with _ | l <;>
    simp [exceptBranch, markError, sessionGet, sessionCommit, h]

/-- A primary-key lookup after replacing the row at a position, under
duplicate-free ids: the replacement row (same id) is the one found. -/
theorem find_set_nodup (ls : List LinkRow) (i : Nat) (r r' : LinkRow)
    (hget : ls[i]? = some r) (hid : r'.id = r.id)
    (hids : (ls.map (·.id)).Nodup) :
    (ls.set i r').find? (fun x => x.id = r'.id) = some r' := by
  induction ls generalizing i with
  | nil => simp at hget
  | cons a rs ih =>
    match i with
    | 0 =>
      obtain rfl : a = r := by simpa using hget
      show ((r' :: rs).find? fun x => x.id = r'.id) = some r'
      rw [List.find?_cons_of_pos _ (by simp)]
    | i + 1 =>
      have hget' : rs[i]? = some r := by simpa using hget
      have hmem : r ∈ rs := List.getElem?_mem hget'
      have hnd := List.nodup_cons.mp (show (a.id :: rs.map (·.id)).Nodup from hids)
      show ((a :: rs.set i r').find? fun x => x.id = r'.id) = some r'
      rw [List.find?_cons_of_neg _ (by
        simp only [hid, decide_eq_true_eq]
        intro he
        exact hnd.1 (by rw [he]; exact List.mem_map_of_mem (·.id) hmem))]
      exact ih i hget' hnd.2

/-- C5.  The claim fails at the persist stage, and the code diverges from
its own intent: when `_process_one`'s commit raises (the `IntegrityError`
of a duplicated enrichment tag name), the `except` branch of `worker_loop`
reuses the session without `rollback()`, so its `s.get` raises
`PendingRollbackError` — the exception escapes the iteration instead of
resolving to an `error` status, the worker task dies (every longer run of
the loop ends in the same crash), and the claimed link is left stuck in
status `processing`. -/
theorem worker_commit_failure_escapes (parse : HtmlParse) (get : HttpGet)
    (svc : Enricher) (now : Nat) (db : DB) (l : LinkRow) (db' : DB) (e : Unit)
    (hids : (db.links.map (·.id)).Nodup)
    (h1 : claim_next now db = (some l, db'))
    (h2 : processOne parse get svc now db' l.id = .error e) :
    exceptBranch true now db' l.id = .error () ∧
    workerStep parse get svc now db = .error db' ∧
    (∀ n : Nat, workerLoopN parse get svc now (n + 1) db = .error db') ∧
    findLink db' l.id = some l ∧ l.status = "processing" := by
  have hstep : workerStep parse get svc now db = .error db' := by
    simp only [workerStep, h1, h2]
    rfl
  have hl2 : findLink db' l.id = some l ∧ l.status = "processing" := by
    rw [claim_next] at h1
    rcases hc : claimNextAux db.links with _ | ⟨i, r⟩
    · rw [hc] at h1; simp at h1
    · rw [hc] at h1
      dsimp only at h1
      obtain ⟨hl, hdb⟩ : some _ = some l ∧ _ = db' :=
        ⟨congrArg Prod.fst h1, congrArg Prod.snd h1⟩
      obtain rfl : _ = l := Option.some.inj hl
      obtain ⟨hget, _, _, _⟩ := claimNextAux_spec db.links i r hc
      refine ⟨?_, rfl⟩
      rw [← hdb]
      exact find_set_nodup db.links i r _ hget rfl hids
  exact ⟨rfl, hstep, fun n => by simp only [workerLoopN, hstep], hl2.1, hl2.2⟩

/-- An HTTP client whose every call raises. -/
def getErr : HttpGet := fun _ => .error ()

/-- An enrichment service that returns a parsed object with a duplicated tag
name — which makes `_process_one`'s commit violate the `link_tags`
uniqueness constraint and raise `IntegrityError`. -/
def svcDup : Enricher := some (.ok ⟨"sum", "cat", ["a", "a"]⟩)

/-- A database with a single queued link. -/
def dbDupTags : DB := ⟨[⟨1, 1, "http://x/", "h", "", "", "", "", "", "queued", 5, 5⟩], [], 2, 1⟩

/-- The row of `dbDupTags` as claimed at instant 9. -/
def lDup : LinkRow := ⟨1, 1, "http://x/", "h", "", "", "", "", "", "processing", 5, 9⟩

/-- `dbDupTags` after the claim at instant 9. -/
def dbDup' : DB := ⟨[lDup], [], 2, 1⟩

/-- Witness for `worker_commit_failure_escapes`: the enrichment response
with a duplicated tag makes `_process_one`'s commit raise, the handler's
`s.get` raises on the poisoned session, the iteration and every longer loop
run end in the escaped exception, and the link stays `processing`. -/
theorem worker_commit_failure_escapes_witness :
    ((dbDupTags.links.map (·.id)).Nodup ∧
      claim_next 9 dbDupTags = (some lDup, dbDup') ∧
      processOne parseDemo getErr svcDup 9 dbDup' lDup.id = .error ()) ∧
    exceptBranch true 9 dbDup' lDup.id = .error () ∧
    workerStep parseDemo getErr svcDup 9 dbDupTags = .error dbDup' ∧
    workerLoopN parseDemo getErr svcDup 9 5 dbDupTags = .error dbDup' ∧
    findLink dbDup' lDup.id = some lDup ∧ lDup.status = "processing" := by
  have h := worker_commit_failure_escapes parseDemo getErr svcDup 9 dbDupTags lDup dbDup' ()
    (by decide) rfl rfl
  exact ⟨⟨by decide, rfl, rfl⟩, h.1, h.2.1, h.2.2.1 4, h.2.2.2.1, h.2.2.2.2⟩

/-! ### C9/C10 — character and list toolkit

`normalize_url` theorems need to re-parse the strings `urlunsplit` builds.
The lemmas below characterise the string primitives; `cleanChar` delimits
the printable-ASCII, bracket-free alphabet on which the `urlsplit` model is
exact (see the urllib section comment). -/

/-- A character of the regime all URL theorems work in: printable ASCII
above space, and not a square bracket (code 91 or 93). -/
def cleanChar (c : Char) : Bool :=
  decide (0x20 < c.toNat ∧ c.toNat < 128 ∧ c.toNat ≠ 91 ∧ c.toNat ≠ 93)

/-- Every character of the list is clean. -/
def cleanL (l : List Char) : Prop := ∀ c ∈ l, cleanChar c = true

theorem char_toNat_inj {c d : Char} (h : c.toNat = d.toNat) : c = d := by
  rw [← Char.ofNat_toNat c, ← Char.ofNat_toNat d, h]

theorem char_toNat_ofNat (n : Nat) (h : n < 0xD800) : (Char.ofNat n).toNat = n := by
  have hv : n.isValidChar := Or.inl h
  rw [Char.ofNat, dif_pos hv]
  show (UInt32.ofNatCore n _).toNat = n
  rfl

/-- Code point of `pyLowerChar`. -/
theorem pyLowerChar_toNat (c : Char) :
    (pyLowerChar c).toNat =
      if 65 ≤ c.toNat ∧ c.toNat ≤ 90 then c.toNat + 32 else c.toNat := by
  rw [pyLowerChar]
  split
  · next h => exact char_toNat_ofNat _ (by omega)
  · rfl

theorem pyLowerChar_idem (c : Char) : pyLowerChar (pyLowerChar c) = pyLowerChar c := by
  rw [pyLowerChar, pyLowerChar_toNat]
  split
  · next h =>
    rw [if_neg]
    omega
  · rfl

theorem pyLower_idem (l : List Char) : pyLower (pyLower l) = pyLower l := by
  simp only [pyLower, List.map_map]
  exact List.map_congr_left fun c _ => pyLowerChar_idem c

theorem pyLower_eq_nil_iff (l : List Char) : pyLower l = [] ↔ l = [] := by
  simp [pyLower]

theorem cleanChar_spec {c : Char} (h : cleanChar c = true) :
    0x20 < c.toNat ∧ c.toNat < 128 ∧ c.toNat ≠ 91 ∧ c.toNat ≠ 93 := by
  simpa [cleanChar] using h

theorem cleanChar_of_toNat {c : Char}
    (h : 0x20 < c.toNat ∧ c.toNat < 128 ∧ c.toNat ≠ 91 ∧ c.toNat ≠ 93) :
    cleanChar c = true := by
  simpa [cleanChar] using h

theorem pyLowerChar_clean {c : Char} (h : cleanChar c = true) :
    cleanChar (pyLowerChar c) = true := by
  have hs := cleanChar_spec h
  apply cleanChar_of_toNat
  rw [pyLowerChar_toNat]
  split <;> omega

theorem pyLower_clean {l : List Char} (h : cleanL l) : cleanL (pyLower l) := by
  intro c hc
  rcases List.mem_map.mp hc with ⟨d, hd, rfl⟩
  exact pyLowerChar_clean (h d hd)

/-- Lower-casing does not create a character whose code lies outside
97–122. -/
theorem pyLowerChar_toNat_ne {c : Char} (k : Nat) (hk : ¬(97 ≤ k ∧ k ≤ 122))
    (hc : c.toNat ≠ k) : (pyLowerChar c).toNat ≠ k := by
  rw [pyLowerChar_toNat]
  split <;> omega

theorem pySpaceChar_eq_false_of_clean {c : Char} (h : cleanChar c = true) :
    pySpaceChar c = false := by
  rcases hsp : pySpaceChar c with _ | _
  · rfl
  · exfalso
    simp only [pySpaceChar, Bool.or_eq_true, decide_eq_true_eq] at hsp
    rcases hsp with ((((rfl | rfl) | rfl) | rfl) | rfl) | rfl <;> simp [cleanChar] at h

theorem unsafeChar_eq_false_of_clean {c : Char} (h : cleanChar c = true) :
    (c = '\t' || c = '\n' || c = '\x0d' : Bool) = false := by
  rcases hu : (c = '\t' || c = '\n' || c = '\x0d' : Bool) with _ | _
  · rfl
  · exfalso
    simp only [Bool.or_eq_true, decide_eq_true_eq] at hu
    rcases hu with (rfl | rfl) | rfl <;> simp [cleanChar] at h

/-- `dropWhile` is the identity when no element satisfies the predicate. -/
theorem dropWhile_eq_self_of_none {α : Type} (p : α → Bool) (l : List α)
    (h : ∀ c ∈ l, p c = false) : l.dropWhile p = l := by
  cases l with
  | nil => rfl
  | cons a rs => rw [List.dropWhile_cons, h a (List.mem_cons_self a rs)]; simp

theorem takeWhile_append_all {α : Type} (p : α → Bool) (a b : List α)
    (h : ∀ c ∈ a, p c = true) :
    (a ++ b).takeWhile p = a ++ b.takeWhile p := by
  induction a with
  | nil => rfl
  | cons x xs ih =>
    rw [List.cons_append, List.takeWhile_cons, h x (List.mem_cons_self x xs)]
    simpa using ih fun c hc => h c (List.mem_cons_of_mem x hc)

theorem dropWhile_append_all {α : Type} (p : α → Bool) (a b : List α)
    (h : ∀ c ∈ a, p c = true) :
    (a ++ b).dropWhile p = b.dropWhile p := by
  induction a with
  | nil => rfl
  | cons x xs ih =>
    rw [List.cons_append, List.dropWhile_cons, h x (List.mem_cons_self x xs)]
    exact ih fun c hc => h c (List.mem_cons_of_mem x hc)

theorem takeWhile_eq_nil_of_head {α : Type} (p : α → Bool) (l : List α)
    (h : ∀ c, l.head? = some c → p c = false) : l.takeWhile p = [] := by
  cases l with
  | nil => rfl
  | cons a rs => rw [List.takeWhile_cons, h a rfl]; rfl

theorem dropWhile_eq_self_of_head {α : Type} (p : α → Bool) (l : List α)
    (h : ∀ c, l.head? = some c → p c = false) : l.dropWhile p = l := by
  cases l with
  | nil => rfl
  | cons a rs => rw [List.dropWhile_cons, h a rfl]; rfl

theorem splitOnce_eq_none (c : Char) (l : List Char) (h : c ∉ l) :
    splitOnceChar c l = none := by
  induction l with
  | nil => rfl
  | cons a rs ih =>
    rw [splitOnceChar, if_neg (by rintro rfl; exact h (List.mem_cons_self a rs)),
      ih fun hm => h (List.mem_cons_of_mem a hm)]
    rfl

theorem splitOnce_append (c : Char) (a b : List Char) (h : c ∉ a) :
    splitOnceChar c (a ++ c :: b) = some (a, b) := by
  induction a with
  | nil => simp [splitOnceChar]
  | cons x xs ih =>
    rw [List.cons_append, splitOnceChar,
      if_neg (by rintro rfl; exact h (List.mem_cons_self x xs)),
      ih fun hm => h (List.mem_cons_of_mem x hm)]
    rfl

theorem splitOnce_eq_some (c : Char) (l x y : List Char)
    (h : splitOnceChar c l = some (x, y)) : l = x ++ c :: y ∧ c ∉ x := by
  induction l generalizing x y with
  | nil => simp [splitOnceChar] at h
  | cons a rs ih =>
    rw [splitOnceChar] at h
    by_cases hac : a = c
    · rw [if_pos hac] at h
      obtain ⟨rfl, rfl⟩ : ([] : List Char) = x ∧ rs = y := by
        have := Option.some.inj h
        exact ⟨congrArg Prod.fst this, congrArg Prod.snd this⟩
      exact ⟨by rw [hac]; rfl, by simp⟩
    · rw [if_neg hac] at h
      rcases hrs : splitOnceChar c rs with _ | ⟨x', y'⟩ <;> rw [hrs] at h
      · simp at h
      · simp only [Option.map_some', Option.some.injEq] at h
        obtain ⟨hx, hy⟩ : a :: x' = x ∧ y' = y :=
          ⟨congrArg Prod.fst h, congrArg Prod.snd h⟩
        obtain ⟨hdec, hnot⟩ := ih x' y' hrs
        subst hx; subst hy
        refine ⟨by rw [List.cons_append, hdec], ?_⟩
        intro hmem
        rcases List.mem_cons.mp hmem with rfl | hmem2
        · exact hac rfl
        · exact hnot hmem2

theorem rsplitOnce_append (c : Char) (a b : List Char) (h : c ∉ b) :
    rsplitOnceChar c (a ++ c :: b) = some (a, b) := by
  rw [rsplitOnceChar]
  have : (a ++ c :: b).reverse = b.reverse ++ c :: a.reverse := by
    simp
  rw [this, splitOnce_append c _ _ (by simpa using h)]
  simp

theorem splitOnce_none_not_mem (c : Char) (l : List Char)
    (h : splitOnceChar c l = none) : c ∉ l := by
  induction l with
  | nil => simp
  | cons a rs ih =>
    rw [splitOnceChar] at h
    by_cases hac : a = c
    · rw [if_pos hac] at h; exact absurd h (by simp)
    · rw [if_neg hac] at h
      rcases hrs : splitOnceChar c rs with _ | p <;> rw [hrs] at h
      · intro hm
        rcases List.mem_cons.mp hm with rfl | hm2
        · exact hac rfl
        · exact ih hrs hm2
      · simp at h

theorem rsplitOnce_eq_some (c : Char) (l x y : List Char)
    (h : rsplitOnceChar c l = some (x, y)) : l = x ++ c :: y ∧ c ∉ y := by
  rw [rsplitOnceChar] at h
  rcases hrev : splitOnceChar c l.reverse with _ | ⟨a, b⟩ <;> rw [hrev] at h
  · simp at h
  · simp only [Option.map_some', Option.some.injEq] at h
    obtain ⟨hx, hy⟩ : b.reverse = x ∧ a.reverse = y :=
      ⟨congrArg Prod.fst h, congrArg Prod.snd h⟩
    obtain ⟨hdec, hnot⟩ := splitOnce_eq_some c l.reverse a b hrev
    subst hx; subst hy
    constructor
    · have := congrArg List.reverse hdec
      simpa using this
    · simpa using hnot

theorem dropWhile_head_false {α : Type} (p : α → Bool) (l : List α) (a : α)
    (rest : List α) (h : l.dropWhile p = a :: rest) : p a = false := by
  have := List.head?_dropWhile_not p l
  rw [h] at this
  simpa using this

/-- A plausible scheme: non-empty, leading ASCII letter, scheme characters
throughout. -/
def schemeOK (l : List Char) : Prop :=
  (∃ c cs, l = c :: cs ∧ asciiAlpha c = true) ∧ l.all schemeChar = true

theorem schemeChar_clean {c : Char} (h : schemeChar c = true) : cleanChar c = true := by
  simp only [schemeChar, decide_eq_true_eq] at h
  apply cleanChar_of_toNat
  omega

theorem schemeChar_ne_colon {c : Char} (h : schemeChar c = true) : c ≠ ':' := by
  rintro rfl
  simp [schemeChar] at h

theorem schemeOK_no_colon {l : List Char} (h : schemeOK l) : ':' ∉ l := fun hm =>
  schemeChar_ne_colon (List.all_eq_true.mp h.2 _ hm) rfl

theorem schemeOK_clean {l : List Char} (h : schemeOK l) : cleanL l := fun c hc =>
  schemeChar_clean (List.all_eq_true.mp h.2 c hc)

theorem schemeOK_ne_nil {l : List Char} (h : schemeOK l) : l ≠ [] := by
  obtain ⟨⟨c, cs, rfl, _⟩, _⟩ := h
  simp

theorem asciiAlpha_lower {c : Char} (h : asciiAlpha c = true) :
    asciiAlpha (pyLowerChar c) = true := by
  simp only [asciiAlpha, decide_eq_true_eq] at h ⊢
  rw [pyLowerChar_toNat]
  split <;> omega

theorem schemeChar_lower {c : Char} (h : schemeChar c = true) :
    schemeChar (pyLowerChar c) = true := by
  simp only [schemeChar, decide_eq_true_eq] at h ⊢
  rw [pyLowerChar_toNat]
  split <;> omega

theorem schemeOK_lower {l : List Char} (h : schemeOK l) : schemeOK (pyLower l) := by
  obtain ⟨⟨c, cs, rfl, hc⟩, hall⟩ := h
  refine ⟨⟨pyLowerChar c, pyLower cs, rfl, asciiAlpha_lower hc⟩, ?_⟩
  rw [List.all_eq_true] at hall ⊢
  intro x hx
  rcases List.mem_map.mp hx with ⟨d, hd, rfl⟩
  exact schemeChar_lower (hall d hd)

theorem extractScheme_valid (sc r : List Char) (h : schemeOK sc) :
    extractScheme (sc ++ ':' :: r) = (pyLower sc, r) := by
  have hnc : ':' ∉ sc := schemeOK_no_colon h
  obtain ⟨⟨c, cs, hsc, hc⟩, hall⟩ := h
  subst hsc
  rw [extractScheme, splitOnce_append _ _ _ hnc]
  simp [hc, hall]

theorem extractScheme_cases (l : List Char) :
    extractScheme l = ([], l) ∨
    ∃ pre rest, l = pre ++ ':' :: rest ∧ schemeOK pre ∧
      extractScheme l = (pyLower pre, rest) := by
  rw [extractScheme]
  rcases hsp : splitOnceChar ':' l with _ | ⟨pre, rest⟩
  · exact Or.inl rfl
  · obtain ⟨hdec, hnc⟩ := splitOnce_eq_some ':' l pre rest hsp
    rcases pre with _ | ⟨c, cs⟩
    · exact Or.inl rfl
    · by_cases hcond : (asciiAlpha c && (c :: cs).all schemeChar) = true
      · rw [Bool.and_eq_true] at hcond
        refine Or.inr ⟨c :: cs, rest, hdec, ⟨⟨c, cs, rfl, hcond.1⟩, hcond.2⟩, ?_⟩
        simp [hcond.1, hcond.2]
      · exact Or.inl (by dsimp only; rw [if_neg hcond])

/-! Optional query/fragment encodings of `urlunsplit` tails. -/

/-- `":" + port` when a port is present. -/
def optPort : Option (List Char) → List Char
  | none => []
  | some p => ':' :: p

/-- `"?" + query` when a query is present. -/
def optQuery : Option (List Char) → List Char
  | none => []
  | some q => '?' :: q

/-- `"#" + fragment` when a fragment is present. -/
def optFrag : Option (List Char) → List Char
  | none => []
  | some f => '#' :: f

theorem splitTail_opt (s n path : List Char) (qo fo : Option (List Char))
    (hpq : '?' ∉ path) (hpf : '#' ∉ path)
    (hqf : ∀ q, qo = some q → '#' ∉ q) :
    splitTail s n (path ++ optQuery qo ++ optFrag fo)
      = ⟨s, n, path, qo.getD [], fo.getD []⟩ := by
  rcases fo with _ | f <;> rcases qo with _ | q
  · rw [splitTail]
    simp only [optQuery, optFrag, List.append_nil]
    rw [splitOnce_eq_none '#' path hpf, splitOnce_eq_none '?' path hpq]
    rfl
  · rw [splitTail]
    simp only [optQuery, optFrag, List.append_nil]
    have hno : '#' ∉ path ++ '?' :: q := by
      simp only [List.mem_append, List.mem_cons]
      rintro (h | h | h)
      · exact hpf h
      · exact absurd h.symm (by decide)
      · exact hqf q rfl h
    rw [splitOnce_eq_none '#' _ hno, splitOnce_append '?' path q hpq]
    rfl
  · rw [splitTail]
    simp only [optQuery, optFrag, List.append_nil]
    rw [splitOnce_append '#' path f hpf, splitOnce_eq_none '?' path hpq]
    rfl
  · rw [splitTail]
    simp only [optQuery, optFrag]
    have hassoc : path ++ '?' :: q ++ '#' :: f = (path ++ '?' :: q) ++ '#' :: f := by
      simp
    have hno : '#' ∉ path ++ '?' :: q := by
      simp only [List.mem_append, List.mem_cons]
      rintro (h | h | h)
      · exact hpf h
      · exact absurd h.symm (by decide)
      · exact hqf q rfl h
    rw [hassoc, splitOnce_append '#' _ f hno, splitOnce_append '?' path q hpq]
    rfl

/-- Decomposition of `splitTail`'s result: the path is a prefix of the
input, the query's characters come from the input, and path and query avoid
their delimiters. -/
theorem splitTail_parse (s n rest : List Char) :
    ∃ t, rest = (splitTail s n rest).path ++ t ∧
    (∀ c ∈ (splitTail s n rest).query, c ∈ rest) ∧
    '?' ∉ (splitTail s n rest).path ∧ '#' ∉ (splitTail s n rest).path ∧
    '#' ∉ (splitTail s n rest).query ∧
    (splitTail s n rest).scheme = s ∧ (splitTail s n rest).netloc = n := by
  rw [splitTail]
  rcases hf : splitOnceChar '#' rest with _ | ⟨bf, af⟩
  · have hfr : '#' ∉ rest := splitOnce_none_not_mem '#' rest hf
    rcases hq : splitOnceChar '?' rest with _ | ⟨bq, aq⟩
    · have hqr : '?' ∉ rest := splitOnce_none_not_mem '?' rest hq
      dsimp only
      exact ⟨[], by simp, fun c hc => by simp at hc, hqr, hfr, by simp, rfl, rfl⟩
    · obtain ⟨hdec, hnq⟩ := splitOnce_eq_some '?' rest bq aq hq
      dsimp only
      refine ⟨'?' :: aq, hdec, ?_, hnq, ?_, ?_, rfl, rfl⟩
      · intro c hc
        rw [hdec]
        simp only [List.mem_append, List.mem_cons]
        exact Or.inr (Or.inr hc)
      · intro hm
        exact hfr (by rw [hdec]; simp only [List.mem_append]; exact Or.inl hm)
      · intro hm
        exact hfr (by
          rw [hdec]
          simp only [List.mem_append, List.mem_cons]
          exact Or.inr (Or.inr hm))
  · obtain ⟨hdecf, hnf⟩ := splitOnce_eq_some '#' rest bf af hf
    rcases hq : splitOnceChar '?' bf with _ | ⟨bq, aq⟩
    · have hqr : '?' ∉ bf := splitOnce_none_not_mem '?' bf hq
      dsimp only
      exact ⟨'#' :: af, hdecf, fun c hc => by simp at hc, hqr, hnf, by simp, rfl, rfl⟩
    · obtain ⟨hdecq, hnq⟩ := splitOnce_eq_some '?' bf bq aq hq
      dsimp only
      refine ⟨'?' :: aq ++ '#' :: af, ?_, ?_, hnq, ?_, ?_, rfl, rfl⟩
      · rw [hdecf, hdecq]; simp
      · intro c hc
        rw [hdecf, hdecq]
        simp only [List.mem_append, List.mem_cons]
        tauto
      · intro hm
        exact hnf (by rw [hdecq]; simp only [List.mem_append]; exact Or.inl hm)
      · intro hm
        exact hnf (by
          rw [hdecq]
          simp only [List.mem_append, List.mem_cons]
          exact Or.inr (Or.inr hm))

/-- On clean authorities both `urlsplit` `ValueError` checks pass, and the
parse decomposes as specified. -/
theorem urlsplitAuthority_ok (scheme rest : List Char) (hrest : cleanL rest) :
    ∃ p, urlsplitAuthority scheme rest = .ok p ∧ p.scheme = scheme ∧
      cleanL p.netloc ∧ (∀ c ∈ p.netloc, netlocEnd c = false) ∧
      cleanL p.path ∧ '?' ∉ p.path ∧ '#' ∉ p.path ∧
      cleanL p.query ∧ '#' ∉ p.query ∧
      (p.netloc ≠ [] → p.path = [] ∨ p.path.take 1 = ['/']) := by
  rw [urlsplitAuthority]
  by_cases htake : rest.take 2 = ['/', '/']
  · rw [if_pos htake]
    have hafter_clean : cleanL (rest.drop 2) := fun c hc =>
      hrest c (List.mem_of_mem_drop hc)
    have hnl_clean : cleanL ((rest.drop 2).takeWhile (fun c => !netlocEnd c)) :=
      fun c hc => hafter_clean c ((List.takeWhile_prefix _).subset hc)
    have hnl_free : ∀ c ∈ (rest.drop 2).takeWhile (fun c => !netlocEnd c),
        netlocEnd c = false := fun c hc => by
      have := List.mem_takeWhile_imp hc
      simpa using this
    have hr2_clean : cleanL ((rest.drop 2).dropWhile (fun c => !netlocEnd c)) :=
      fun c hc => hafter_clean c ((List.dropWhile_suffix _).subset hc)
    have hnobr1 : ('[' : Char) ∉ (rest.drop 2).takeWhile (fun c => !netlocEnd c) := by
      intro hm
      have := cleanChar_spec (hnl_clean _ hm)
      simp at this
    have hnobr2 : (']' : Char) ∉ (rest.drop 2).takeWhile (fun c => !netlocEnd c) := by
      intro hm
      have := cleanChar_spec (hnl_clean _ hm)
      simp at this
    have hascii : ((rest.drop 2).takeWhile (fun c => !netlocEnd c)).all
        (fun c => c.toNat < 128) = true :=
      List.all_eq_true.mpr fun c hc => decide_eq_true (cleanChar_spec (hnl_clean c hc)).2.1
    rw [if_neg (by simp [hnobr1, hnobr2]), if_neg (by simp [hascii])]
    obtain ⟨t, hdec, hqmem, hpq, hpf, hqf, hsch, hnet⟩ :=
      splitTail_parse scheme ((rest.drop 2).takeWhile (fun c => !netlocEnd c))
        ((rest.drop 2).dropWhile (fun c => !netlocEnd c))
    refine ⟨_, rfl, hsch, hnet ▸ hnl_clean, hnet ▸ hnl_free,
      fun c hc => hr2_clean c (by rw [hdec]; exact List.mem_append_left t hc),
      hpq, hpf, fun c hc => hr2_clean c (hqmem c hc), hqf, fun _ => ?_⟩
    rcases hpath : (splitTail scheme ((rest.drop 2).takeWhile (fun c => !netlocEnd c))
        ((rest.drop 2).dropWhile (fun c => !netlocEnd c))).path with _ | ⟨c, p'⟩
    · exact Or.inl rfl
    · refine Or.inr ?_
      rw [hpath] at hdec
      have hend : netlocEnd c = true := by
        have := dropWhile_head_false (fun c => !netlocEnd c) (rest.drop 2) c (p' ++ t)
          (by rw [hdec]; rfl)
        simpa using this
      have hcq : c ≠ '?' := fun hEq => hpq (by rw [hpath, hEq]; exact List.mem_cons_self _ _)
      have hcf : c ≠ '#' := fun hEq => hpf (by rw [hpath, hEq]; exact List.mem_cons_self _ _)
      have hc47 : c.toNat = 47 := by
        simp only [netlocEnd, decide_eq_true_eq] at hend
        rcases hend with h | h | h
        · exact h
        · exact absurd (char_toNat_inj (h.trans (by decide))) hcq
        · exact absurd (char_toNat_inj (h.trans (by decide))) hcf
      have : c = '/' := char_toNat_inj (by rw [hc47]; rfl)
      rw [this]
      rfl
  · rw [if_neg htake]
    obtain ⟨t, hdec, hqmem, hpq, hpf, hqf, hsch, hnet⟩ := splitTail_parse scheme [] rest
    refine ⟨_, rfl, hsch, ?_, ?_,
      fun c hc => hrest c (by rw [hdec]; exact List.mem_append_left t hc),
      hpq, hpf, fun c hc => hrest c (hqmem c hc), hqf,
      fun h => absurd hnet h⟩
    · rw [hnet]; intro c hc; simp at hc
    · rw [hnet]; intro c hc; simp at hc

/-- On clean input `urlsplit` reduces to scheme extraction followed by the
authority step (the unsafe-byte removal and the C0 strip are the
identity). -/
theorem urlsplitL_clean_eq (l : List Char) (hcl : cleanL l) :
    urlsplitL l = urlsplitAuthority (extractScheme l).1 (extractScheme l).2 := by
  rw [urlsplitL]
  have h1 : l.filter (fun c => !(c = '\t' || c = '\n' || c = '\x0d')) = l :=
    List.filter_eq_self.mpr fun c hc => by
      rw [unsafeChar_eq_false_of_clean (hcl c hc)]; rfl
  have h2 : l.dropWhile (fun c => c.toNat ≤ 0x20) = l :=
    dropWhile_eq_self_of_none _ l fun c hc => by
      have := cleanChar_spec (hcl c hc)
      exact decide_eq_false (by omega)
  rw [h1, h2]

/-- Characterisation of `urlsplit` on clean input: it succeeds and its
components satisfy the parse invariants. -/
theorem urlsplitL_ok (l : List Char) (hcl : cleanL l) :
    ∃ p, urlsplitL l = .ok p ∧
      (p.scheme = [] ∨ (schemeOK p.scheme ∧ pyLower p.scheme = p.scheme)) ∧
      cleanL p.netloc ∧ (∀ c ∈ p.netloc, netlocEnd c = false) ∧
      cleanL p.path ∧ '?' ∉ p.path ∧ '#' ∉ p.path ∧
      cleanL p.query ∧ '#' ∉ p.query ∧
      (p.netloc ≠ [] → p.path = [] ∨ p.path.take 1 = ['/']) := by
  rw [urlsplitL_clean_eq l hcl]
  rcases extractScheme_cases l with hE | ⟨pre, rest0, hdec, hOK, hE⟩
  · obtain ⟨p, hp, hsch, rest⟩ := urlsplitAuthority_ok (extractScheme l).1
      (extractScheme l).2 (by rw [hE]; exact hcl)
    exact ⟨p, hp, Or.inl (by rw [hsch, hE]), rest⟩
  · obtain ⟨p, hp, hsch, rest⟩ := urlsplitAuthority_ok (extractScheme l).1
      (extractScheme l).2 (by
        rw [hE]
        intro c hc
        exact hcl c (by rw [hdec]; simp only [List.mem_append, List.mem_cons]; tauto))
    refine ⟨p, hp, Or.inr ?_, rest⟩
    rw [hsch, hE]
    exact ⟨schemeOK_lower hOK, pyLower_idem pre⟩

/-- The `ValueError` checks pass on any clean authority. -/
theorem netloc_checks (nl : List Char) (hncl : cleanL nl) :
    (nl.contains '[' || nl.contains ']') = false ∧
    (!(nl.all fun c => c.toNat < 128)) = false := by
  constructor
  · have h1 : ('[' : Char) ∉ nl := fun hm => by
      have := cleanChar_spec (hncl _ hm); simp at this
    have h2 : (']' : Char) ∉ nl := fun hm => by
      have := cleanChar_spec (hncl _ hm); simp at this
    simp [h1, h2]
  · simp only [Bool.not_eq_false']
    exact List.all_eq_true.mpr fun c hc =>
      decide_eq_true (cleanChar_spec (hncl c hc)).2.1

/-- The optional-query tail used by the unsplit computations. -/
theorem qtail_eq_optQuery (q : List Char) :
    (if q = [] then ([] : List Char) else '?' :: q)
      = optQuery (if q = [] then none else some q) := by
  by_cases h : q = [] <;> simp [h, optQuery]

theorem qtail_getD (q : List Char) :
    (if q = [] then (none : Option (List Char)) else some q).getD [] = q := by
  by_cases h : q = [] <;> simp [h]

/-- The first character after the authority (path head or `?`) ends the
netloc scan. -/
theorem patail_head (pa q : List Char) (hpa : pa = [] ∨ pa.take 1 = ['/']) :
    ∀ c, (pa ++ (if q = [] then [] else '?' :: q)).head? = some c →
      (!netlocEnd c) = false := by
  intro c hc
  rcases hpa with rfl | h1
  · simp only [List.nil_append] at hc
    by_cases hq : q = []
    · rw [if_pos hq] at hc; simp at hc
    · rw [if_neg hq] at hc
      simp only [List.head?_cons, Option.some.injEq] at hc
      subst hc
      decide
  · rcases pa with _ | ⟨a, pa'⟩
    · simp at h1
    · have : a = '/' := by
        have := h1
        simp only [List.take_succ_cons, List.take_zero, List.cons.injEq] at this
        exact this.1
      subst this
      simp only [List.cons_append, List.head?_cons, Option.some.injEq] at hc
      subst hc
      decide

/-- A list whose first two elements are known. -/
theorem take_two_shape {α : Type} (l : List α) (a b : α) (h : l.take 2 = [a, b]) :
    ∃ t, l = a :: b :: t := by
  match l with
  | [] => simp at h
  | [x] => simp at h
  | x :: y :: t =>
    simp only [List.take_succ_cons, List.take_zero, List.cons.injEq, and_true] at h
    obtain ⟨rfl, rfl⟩ := h
    exact ⟨t, rfl⟩

/-- Without an authority marker, the reassembled remainder cannot start with
`//`. -/
theorem take2_ne (pa q : List Char) (hpa2 : pa ≠ [] → pa.take 2 ≠ ['/', '/']) :
    (pa ++ (if q = [] then [] else '?' :: q)).take 2 ≠ ['/', '/'] := by
  intro h
  obtain ⟨t, ht⟩ := take_two_shape _ _ _ h
  rcases pa with _ | ⟨c1, pa'⟩
  · rw [List.nil_append] at ht
    by_cases hq : q = []
    · rw [if_pos hq] at ht
      exact List.noConfusion ht
    · rw [if_neg hq] at ht
      injection ht with h1 _
      exact absurd h1 (by decide)
  · rcases pa' with _ | ⟨c2, pa''⟩
    · rw [List.cons_append, List.nil_append] at ht
      injection ht with h1 ht2
      by_cases hq : q = []
      · rw [if_pos hq] at ht2
        exact List.noConfusion ht2
      · rw [if_neg hq] at ht2
        injection ht2 with h2 _
        exact absurd h2 (by decide)
    · rw [List.cons_append, List.cons_append] at ht
      injection ht with h1 ht2
      injection ht2 with h2 _
      refine hpa2 (by simp) ?_
      rw [h1, h2]
      rfl

/-- The bracket and non-ASCII checks on a clean netloc. -/
theorem netloc_checks3 (nl : List Char) (hncl : cleanL nl) :
    nl.contains '[' = false ∧ nl.contains ']' = false ∧
    nl.all (fun c => c.toNat < 128) = true := by
  refine ⟨?_, ?_, ?_⟩
  · have h1 : ('[' : Char) ∉ nl := fun hm => by
      have := cleanChar_spec (hncl _ hm); simp at this
    simpa using h1
  · have h2 : (']' : Char) ∉ nl := fun hm => by
      have := cleanChar_spec (hncl _ hm); simp at this
    simpa using h2
  · exact List.all_eq_true.mpr fun c hc =>
      decide_eq_true (cleanChar_spec (hncl c hc)).2.1

/-- `urlsplit`'s authority step on a remainder starting with `//`, when the
checks pass. -/
theorem urlsplitAuthority_cons_slash (scheme X : List Char)
    (hbr1 : (X.takeWhile (fun c => !netlocEnd c)).contains '[' = false)
    (hbr2 : (X.takeWhile (fun c => !netlocEnd c)).contains ']' = false)
    (hascii : (X.takeWhile (fun c => !netlocEnd c)).all (fun c => c.toNat < 128) = true) :
    urlsplitAuthority scheme ('/' :: '/' :: X)
      = .ok (splitTail scheme (X.takeWhile (fun c => !netlocEnd c))
          (X.dropWhile (fun c => !netlocEnd c))) := by
  rw [urlsplitAuthority,
    if_pos (show List.take 2 ('/' :: '/' :: X) = ['/', '/'] from rfl)]
  dsimp only
  rw [show List.drop 2 ('/' :: '/' :: X) = X from rfl]
  rw [if_neg (by rw [hbr1, hbr2]; simp), if_neg (by rw [hascii]; simp)]

/-- Re-parsing an unsplit: `urlsplit (urlunsplit p) = p` for parts with a
valid lower-case scheme, no fragment, clean delimiter-free components, and
the authority/path shape invariant. -/
theorem urlsplit_unsplit (p : SplitParts)
    (hs : schemeOK p.scheme) (hslow : pyLower p.scheme = p.scheme)
    (hfrag : p.fragment = [])
    (hncl : cleanL p.netloc) (hnd : ∀ c ∈ p.netloc, netlocEnd c = false)
    (hpcl : cleanL p.path) (hpq : '?' ∉ p.path) (hpf : '#' ∉ p.path)
    (hqcl : cleanL p.query) (hqf : '#' ∉ p.query)
    (hshape : p.netloc ≠ [] → p.path = [] ∨ p.path.take 1 = ['/']) :
    urlsplitL (urlunsplitL p) = .ok p := by
  obtain ⟨sc, nl, pa, q, fr⟩ := p
  simp only at hs hslow hncl hnd hpcl hpq hpf hqcl hqf hshape hfrag
  subst hfrag
  have hscne : sc ≠ [] := schemeOK_ne_nil hs
  have hqtail_clean : cleanL (if q = [] then [] else '?' :: q) := by
    by_cases hq : q = []
    · rw [if_pos hq]; intro c hc; simp at hc
    · rw [if_neg hq]
      intro c hc
      rcases List.mem_cons.mp hc with rfl | hm
      · decide
      · exact hqcl c hm
  by_cases hcond : nl ≠ [] ∨ (pa ≠ [] ∧ pa.take 2 = ['/', '/'])
  · -- authority branch of urlunsplit
    have hpa : pa = [] ∨ pa.take 1 = ['/'] := by
      rcases hcond with hnl | ⟨hpane, h2⟩
      · exact hshape hnl
      · rcases pa with _ | ⟨c, pa'⟩
        · exact Or.inl rfl
        · refine Or.inr ?_
          rcases pa' with _ | ⟨c2, pa''⟩
          · simp at h2
          · simp only [List.take_succ_cons, List.cons.injEq] at h2 ⊢
            exact ⟨h2.1, rfl⟩
    have hpa1 : (if pa ≠ [] ∧ pa.take 1 ≠ ['/'] then '/' :: pa else pa) = pa := by
      rcases hpa with rfl | h1
      · rw [if_neg (by simp)]
      · rw [if_neg (fun hcontra => hcontra.2 h1)]
    have hu : urlunsplitL ⟨sc, nl, pa, q, []⟩
        = sc ++ ':' :: ('/' :: '/' :: (nl ++ (pa ++ (if q = [] then [] else '?' :: q)))) := by
      rw [urlunsplitL]
      dsimp only
      rw [if_pos hcond, hpa1, if_pos hscne]
      by_cases hq : q = []
      · subst hq
        simp
      · rw [if_neg (show ¬(([] : List Char) ≠ []) by simp),
          if_pos (show q ≠ [] from hq), if_neg hq]
        simp
    rw [hu]
    have hclean : cleanL (sc ++ ':' ::
        ('/' :: '/' :: (nl ++ (pa ++ (if q = [] then [] else '?' :: q))))) := by
      intro c hc
      simp only [List.mem_append, List.mem_cons] at hc
      rcases hc with h | rfl | rfl | rfl | h | h | h
      · exact schemeOK_clean hs c h
      · decide
      · decide
      · decide
      · exact hncl c h
      · exact hpcl c h
      · exact hqtail_clean c h
    rw [urlsplitL_clean_eq _ hclean, extractScheme_valid sc _ hs]
    dsimp only
    rw [hslow]
    have htw : (nl ++ (pa ++ (if q = [] then [] else '?' :: q))).takeWhile
        (fun c => !netlocEnd c) = nl := by
      rw [takeWhile_append_all _ nl _ (fun c hc => by rw [hnd c hc]; rfl),
        takeWhile_eq_nil_of_head _ _ (patail_head pa q hpa), List.append_nil]
    have hdw : (nl ++ (pa ++ (if q = [] then [] else '?' :: q))).dropWhile
        (fun c => !netlocEnd c)
        = pa ++ (if q = [] then [] else '?' :: q) := by
      rw [dropWhile_append_all _ nl _ (fun c hc => by rw [hnd c hc]; rfl),
        dropWhile_eq_self_of_head _ _ (patail_head pa q hpa)]
    obtain ⟨hck1, hck2, hck3⟩ := netloc_checks3 nl hncl
    rw [urlsplitAuthority_cons_slash sc _ (by rw [htw]; exact hck1)
      (by rw [htw]; exact hck2) (by rw [htw]; exact hck3)]
    rw [htw, hdw]
    rw [qtail_eq_optQuery]
    have := splitTail_opt sc nl pa (if q = [] then none else some q) none hpq hpf
      (fun q' hq' => by
        by_cases hq : q = []
        · rw [if_pos hq] at hq'; exact absurd hq' (by simp)
        · rw [if_neg hq] at hq'
          obtain rfl := Option.some.inj hq'
          exact hqf)
    rw [show pa ++ optQuery (if q = [] then none else some q) ++ optFrag none
        = pa ++ optQuery (if q = [] then none else some q) by simp [optFrag]] at this
    rw [this, qtail_getD]
    rfl
  · -- plain (no authority) branch of urlunsplit
    have hnl : nl = [] := by
      by_contra hne
      exact hcond (Or.inl hne)
    have hpa2 : pa ≠ [] → pa.take 2 ≠ ['/', '/'] := by
      intro hne h2
      exact hcond (Or.inr ⟨hne, h2⟩)
    subst hnl
    have hu : urlunsplitL ⟨sc, [], pa, q, []⟩
        = sc ++ ':' :: (pa ++ (if q = [] then [] else '?' :: q)) := by
      rw [urlunsplitL]
      dsimp only
      rw [if_neg hcond, if_pos hscne]
      by_cases hq : q = []
      · subst hq
        simp
      · rw [if_neg (show ¬(([] : List Char) ≠ []) by simp),
          if_pos (show q ≠ [] from hq), if_neg hq]
        simp
    rw [hu]
    have hclean : cleanL (sc ++ ':' :: (pa ++ (if q = [] then [] else '?' :: q))) := by
      intro c hc
      simp only [List.mem_append, List.mem_cons] at hc
      rcases hc with h | rfl | h | h
      · exact schemeOK_clean hs c h
      · decide
      · exact hpcl c h
      · exact hqtail_clean c h
    rw [urlsplitL_clean_eq _ hclean, extractScheme_valid sc _ hs]
    dsimp only
    rw [hslow, urlsplitAuthority, if_neg (take2_ne pa q hpa2)]
    rw [qtail_eq_optQuery]
    have := splitTail_opt sc [] pa (if q = [] then none else some q) none hpq hpf
      (fun q' hq' => by
        by_cases hq : q = []
        · rw [if_pos hq] at hq'; exact absurd hq' (by simp)
        · rw [if_neg hq] at hq'
          obtain rfl := Option.some.inj hq'
          exact hqf)
    rw [show pa ++ optQuery (if q = [] then none else some q) ++ optFrag none
        = pa ++ optQuery (if q = [] then none else some q) by simp [optFrag]] at this
    rw [this, qtail_getD]
    rfl

theorem pyStrip_eq_self (l : List Char) (h : cleanL l) : pyStrip l = l := by
  rw [pyStrip,
    dropWhile_eq_self_of_none _ _ (fun c hc => pySpaceChar_eq_false_of_clean (h c hc)),
    dropWhile_eq_self_of_none _ _
      (fun c hc => pySpaceChar_eq_false_of_clean (h c (List.mem_reverse.mp hc))),
    List.reverse_reverse]

/-- The head of `path ++ query-tail ++ fragment-tail` (if any) ends the
netloc scan. -/
theorem tail_head3 (path : List Char) (qo fo : Option (List Char))
    (hpath : path = [] ∨ path.take 1 = ['/']) :
    ∀ c, (path ++ optQuery qo ++ optFrag fo).head? = some c →
      (!netlocEnd c) = false := by
  intro c hc
  rcases hpath with rfl | h1
  · simp only [List.nil_append] at hc
    rcases qo with _ | q
    · rcases fo with _ | f
      · simp [optQuery, optFrag] at hc
      · simp only [optQuery, optFrag, List.nil_append, List.head?_cons,
          Option.some.injEq] at hc
        subst hc
        decide
    · simp only [optQuery, List.cons_append, List.head?_cons, Option.some.injEq] at hc
      subst hc
      decide
  · rcases path with _ | ⟨a, path'⟩
    · simp at h1
    · have : a = '/' := by
        simp only [List.take_succ_cons, List.take_zero, List.cons.injEq] at h1
        exact h1.1
      subst this
      simp only [List.cons_append, List.head?_cons, Option.some.injEq] at hc
      subst hc
      decide

/-- The authority-form output of `urlunsplit`. -/
theorem urlunsplitL_eq (sc nl pa q : List Char) (hsc : sc ≠ []) (hnl : nl ≠ [])
    (hpa : pa.take 1 = ['/']) :
    urlunsplitL ⟨sc, nl, pa, q, []⟩
      = sc ++ ':' :: '/' :: '/' :: (nl ++ (pa ++ (if q = [] then [] else '?' :: q))) := by
  have hcond : nl ≠ [] ∨ (pa ≠ [] ∧ pa.take 2 = ['/', '/']) := Or.inl hnl
  have hpa1 : (if pa ≠ [] ∧ pa.take 1 ≠ ['/'] then '/' :: pa else pa) = pa :=
    if_neg (fun h => h.2 hpa)
  rw [urlunsplitL]
  dsimp only
  rw [if_pos hcond, hpa1, if_pos hsc]
  by_cases hq : q = []
  · subst hq
    simp
  · rw [if_neg (show ¬(([] : List Char) ≠ []) by simp),
      if_pos (show q ≠ [] from hq), if_neg hq]
    simp

theorem normNetloc_no_colon (sch nl : List Char) (h : ':' ∉ nl) :
    normNetloc sch nl = pyLower nl := by
  rw [normNetloc, if_neg (by simpa using h)]

theorem normNetloc_with_port (sch host p : List Char) (hp : ':' ∉ p) :
    normNetloc sch (host ++ ':' :: p)
      = if isDefaultPort sch p then pyLower host else pyLower host ++ ':' :: p := by
  rw [normNetloc, if_pos (by simp), rsplitOnce_append ':' host p hp]

/-- The port part of a normalized netloc: default ports are dropped, any
other port is kept verbatim. -/
def portOut (sch : List Char) : Option (List Char) → List Char
  | none => []
  | some p => if isDefaultPort sch p then [] else ':' :: p

/-! ### C9 — normalize_url on well-formed absolute URLs -/

/-- C9.  URL normalization on a well-formed absolute URL
`scheme://host[:port]path[?query][#fragment]` (clean printable-ASCII
components, colon-free host, digit port, `/`-anchored path): the scheme and
the host are lower-cased, a default port (`http`/80, `https`/443) is
stripped while any other port is preserved, the fragment is dropped, the
query is preserved, and an empty path becomes `/`; in particular
`HTTP://Example.com:80/path?q=1#frag` normalizes to
`http://example.com/path?q=1`. -/
theorem normalize_url_spec
    (sc host path : List Char) (portOpt queryOpt fragOpt : Option (List Char))
    (hsc : schemeOK sc)
    (hhostne : host ≠ []) (hhostcl : cleanL host)
    (hhost : ∀ c ∈ host, netlocEnd c = false ∧ c ≠ ':')
    (hport : ∀ p, portOpt = some p → p ≠ [] ∧ ∀ c ∈ p, 48 ≤ c.toNat ∧ c.toNat ≤ 57)
    (hpath : path = [] ∨ path.take 1 = ['/'])
    (hpathcl : cleanL path) (hpq : '?' ∉ path) (hpf : '#' ∉ path)
    (hquery : ∀ q, queryOpt = some q → q ≠ [] ∧ cleanL q ∧ '#' ∉ q)
    (hfrag : ∀ f, fragOpt = some f → cleanL f) :
    normalizeUrlL (sc ++ ':' :: '/' :: '/' ::
        ((host ++ optPort portOpt) ++ (path ++ optQuery queryOpt ++ optFrag fragOpt)))
      = .ok (pyLower sc ++ ':' :: '/' :: '/' ::
          ((pyLower host ++ portOut (pyLower sc) portOpt) ++
           ((if path = [] then ['/'] else path) ++ optQuery queryOpt))) ∧
    normalize_url "HTTP://Example.com:80/path?q=1#frag" = .ok "http://example.com/path?q=1" := by
  refine ⟨?_, rfl⟩
  have hportcl : cleanL (optPort portOpt) := by
    rcases portOpt with _ | p
    · intro c hc; simp [optPort] at hc
    · intro c hc
      simp only [optPort] at hc
      rcases List.mem_cons.mp hc with rfl | hm
      · decide
      · have := (hport p rfl).2 c hm
        exact cleanChar_of_toNat (by omega)
  have hportnd : ∀ c ∈ optPort portOpt, netlocEnd c = false := by
    rcases portOpt with _ | p
    · intro c hc; simp [optPort] at hc
    · intro c hc
      simp only [optPort] at hc
      rcases List.mem_cons.mp hc with rfl | hm
      · decide
      · have := (hport p rfl).2 c hm
        simp only [netlocEnd, decide_eq_false_iff_not]
        omega
  have hqtailcl : cleanL (optQuery queryOpt) := by
    rcases queryOpt with _ | q
    · intro c hc; simp [optQuery] at hc
    · intro c hc
      simp only [optQuery] at hc
      rcases List.mem_cons.mp hc with rfl | hm
      · decide
      · exact (hquery q rfl).2.1 c hm
  have hftailcl : cleanL (optFrag fragOpt) := by
    rcases fragOpt with _ | f
    · intro c hc; simp [optFrag] at hc
    · intro c hc
      simp only [optFrag] at hc
      rcases List.mem_cons.mp hc with rfl | hm
      · decide
      · exact hfrag f rfl c hm
  have hclean : cleanL (sc ++ ':' :: '/' :: '/' ::
      ((host ++ optPort portOpt) ++ (path ++ optQuery queryOpt ++ optFrag fragOpt))) := by
    intro c hc
    simp only [List.mem_append, List.mem_cons] at hc
    rcases hc with h | rfl | rfl | rfl | (h | h) | (h | h) | h
    · exact schemeOK_clean hsc c h
    · decide
    · decide
    · decide
    · exact hhostcl c h
    · exact hportcl c h
    · exact hpathcl c h
    · exact hqtailcl c h
    · exact hftailcl c h
  have hne : sc ++ ':' :: '/' :: '/' ::
      ((host ++ optPort portOpt) ++ (path ++ optQuery queryOpt ++ optFrag fragOpt)) ≠ [] := by
    obtain ⟨⟨c, cs, rfl, _⟩, _⟩ := hsc
    simp
  rw [normalizeUrlL, pyStrip_eq_self _ hclean, if_neg hne]
  have hAnd : ∀ c ∈ host ++ optPort portOpt, (!netlocEnd c) = true := by
    intro c hc
    rcases List.mem_append.mp hc with h | h
    · rw [(hhost c h).1]; rfl
    · rw [hportnd c h]; rfl
  have htw : ((host ++ optPort portOpt) ++
      (path ++ optQuery queryOpt ++ optFrag fragOpt)).takeWhile (fun c => !netlocEnd c)
      = host ++ optPort portOpt := by
    rw [takeWhile_append_all _ _ _ hAnd,
      takeWhile_eq_nil_of_head _ _ (tail_head3 path queryOpt fragOpt hpath),
      List.append_nil]
  have hdw : ((host ++ optPort portOpt) ++
      (path ++ optQuery queryOpt ++ optFrag fragOpt)).dropWhile (fun c => !netlocEnd c)
      = path ++ optQuery queryOpt ++ optFrag fragOpt := by
    rw [dropWhile_append_all _ _ _ hAnd,
      dropWhile_eq_self_of_head _ _ (tail_head3 path queryOpt fragOpt hpath)]
  have hAcl : cleanL (host ++ optPort portOpt) := by
    intro c hc
    rcases List.mem_append.mp hc with h | h
    · exact hhostcl c h
    · exact hportcl c h
  obtain ⟨hck1, hck2, hck3⟩ := netloc_checks3 _ hAcl
  have hsplit : urlsplitL (sc ++ ':' :: '/' :: '/' ::
      ((host ++ optPort portOpt) ++ (path ++ optQuery queryOpt ++ optFrag fragOpt)))
      = .ok ⟨pyLower sc, host ++ optPort portOpt, path,
          queryOpt.getD [], fragOpt.getD []⟩ := by
    rw [urlsplitL_clean_eq _ hclean, extractScheme_valid sc _ hsc]
    dsimp only
    rw [urlsplitAuthority_cons_slash _ _ (by rw [htw]; exact hck1)
      (by rw [htw]; exact hck2) (by rw [htw]; exact hck3), htw, hdw]
    rw [splitTail_opt _ _ _ _ _ hpq hpf (fun q hq => (hquery q hq).2.2)]
  rw [hsplit]
  dsimp only
  have hscne2 : pyLower sc ≠ [] := by
    rw [Ne, pyLower_eq_nil_iff]
    exact schemeOK_ne_nil hsc
  rw [if_neg hscne2, pyLower_idem]
  have hnet : normNetloc (pyLower sc) (host ++ optPort portOpt)
      = pyLower host ++ portOut (pyLower sc) portOpt := by
    rcases portOpt with _ | p
    · simp only [optPort, portOut, List.append_nil]
      rw [normNetloc_no_colon _ _ (fun hm => (hhost ':' hm).2 rfl)]
    · simp only [optPort, portOut]
      rw [normNetloc_with_port _ _ _
        (fun hm => by
          have h5758 := (hport p rfl).2 ':' hm
          rw [show (Char.toNat ':') = 58 from rfl] at h5758
          omega)]
      by_cases hdef : isDefaultPort (pyLower sc) p = true
      · rw [if_pos hdef, if_pos hdef]
        simp
      · rw [if_neg hdef, if_neg hdef]
  rw [hnet]
  have hnlne : pyLower host ++ portOut (pyLower sc) portOpt ≠ [] := by
    intro h
    rcases List.append_eq_nil.mp h with ⟨h1, _⟩
    exact hhostne (pyLower_eq_nil_iff host |>.mp h1)
  have hpath1 : (if path = [] then ['/'] else path).take 1 = ['/'] := by
    rcases hpath with rfl | h1
    · rfl
    · rcases path with _ | ⟨a, p'⟩
      · rfl
      · rw [if_neg (by simp)]
        exact h1
  rw [urlunsplitL_eq _ _ _ _ hscne2 hnlne hpath1]
  have hqform : (if queryOpt.getD [] = [] then ([] : List Char)
      else '?' :: queryOpt.getD []) = optQuery queryOpt := by
    rcases queryOpt with _ | q
    · simp [optQuery]
    · rw [Option.getD_some, if_neg (hquery q rfl).1]
      rfl
  rw [hqform]

/-- Witness for `normalize_url_spec` at the spec's example
`HTTP://Example.com:80/path?q=1#frag`. -/
theorem normalize_url_spec_witness :
    schemeOK "HTTP".data ∧
    normalizeUrlL ("HTTP".data ++ ':' :: '/' :: '/' ::
        (("Example.com".data ++ optPort (some "80".data)) ++
         ("/path".data ++ optQuery (some "q=1".data) ++ optFrag (some "frag".data))))
      = .ok (pyLower "HTTP".data ++ ':' :: '/' :: '/' ::
          ((pyLower "Example.com".data ++ portOut (pyLower "HTTP".data) (some "80".data)) ++
           ((if "/path".data = [] then ['/'] else "/path".data) ++
            optQuery (some "q=1".data)))) ∧
    normalize_url "HTTP://Example.com:80/path?q=1#frag" = .ok "http://example.com/path?q=1" := by
  refine ⟨?_, ?_, rfl⟩
  · exact ⟨⟨'H', "TTP".data, rfl, by decide⟩, by decide⟩
  · have h := normalize_url_spec "HTTP".data "Example.com".data "/path".data
      (some "80".data) (some "q=1".data) (some "frag".data)
      ⟨⟨'H', "TTP".data, rfl, by decide⟩, by decide⟩
      (by decide)
      (show ∀ c ∈ "Example.com".data, cleanChar c = true by decide)
      (by decide)
      (fun p hp => by cases hp; exact ⟨by decide, by decide⟩)
      (Or.inr (by decide))
      (show ∀ c ∈ "/path".data, cleanChar c = true by decide)
      (by decide) (by decide)
      (fun q hq => by
        cases hq
        exact ⟨by decide, show ∀ c ∈ "q=1".data, cleanChar c = true by decide, by decide⟩)
      (fun f hf => by
        cases hf
        exact show ∀ c ∈ "frag".data, cleanChar c = true by decide)
    exact h.1

/-! ### C10 — idempotency of normalize_url -/

theorem pyLowerChar_ne_colon {c : Char} (h : c ≠ ':') : pyLowerChar c ≠ ':' := by
  intro he
  exact pyLowerChar_toNat_ne 58 (by omega)
    (fun h2 => h (char_toNat_inj (show c.toNat = Char.toNat ':' from h2)))
    (show (pyLowerChar c).toNat = 58 by rw [he]; rfl)

theorem pyLower_colon_not_mem {l : List Char} (h : ':' ∉ l) : ':' ∉ pyLower l := by
  intro hm
  rcases List.mem_map.mp hm with ⟨d, hd, hde⟩
  exact pyLowerChar_ne_colon (fun hdc => h (hdc ▸ hd)) hde

theorem pyLowerChar_netlocEnd {c : Char} (h : netlocEnd c = false) :
    netlocEnd (pyLowerChar c) = false := by
  simp only [netlocEnd, decide_eq_false_iff_not] at h ⊢
  rw [pyLowerChar_toNat]
  split <;> omega

/-- Every character of a normalized netloc is a lowered character of the
input, a character of the input, or the port separator. -/
theorem normNetloc_mem (sch nl : List Char) :
    ∀ c ∈ normNetloc sch nl, (∃ d ∈ nl, c = pyLowerChar d) ∨ c ∈ nl ∨ c = ':' := by
  intro c hc
  by_cases hcol : nl.contains ':' = true
  · rw [normNetloc, if_pos hcol] at hc
    rcases hsplit : rsplitOnceChar ':' nl with _ | ⟨host, port⟩ <;> rw [hsplit] at hc
    · rcases List.mem_map.mp (show c ∈ pyLower nl from hc) with ⟨d, hd, hde⟩
      exact Or.inl ⟨d, hd, hde.symm⟩
    · obtain ⟨hdec, hnp⟩ := rsplitOnce_eq_some ':' nl host port hsplit
      have hc2 : c ∈ if isDefaultPort sch port then pyLower host
          else pyLower host ++ ':' :: port := hc
      by_cases hdef : isDefaultPort sch port = true
      · rw [if_pos hdef] at hc2
        rcases List.mem_map.mp hc2 with ⟨d, hd, hde⟩
        exact Or.inl ⟨d, by rw [hdec]; exact List.mem_append_left _ hd, hde.symm⟩
      · rw [if_neg hdef] at hc2
        rcases List.mem_append.mp hc2 with hm | hm
        · rcases List.mem_map.mp hm with ⟨d, hd, hde⟩
          exact Or.inl ⟨d, by rw [hdec]; exact List.mem_append_left _ hd, hde.symm⟩
        · rcases List.mem_cons.mp hm with rfl | hm2
          · exact Or.inr (Or.inr rfl)
          · exact Or.inr (Or.inl (by
              rw [hdec]
              exact List.mem_append_right _ (List.mem_cons_of_mem _ hm2)))
  · rw [normNetloc, if_neg hcol] at hc
    rcases List.mem_map.mp hc with ⟨d, hd, hde⟩
    exact Or.inl ⟨d, hd, hde.symm⟩

theorem normNetloc_clean (sch nl : List Char) (h : cleanL nl) :
    cleanL (normNetloc sch nl) := by
  intro c hc
  rcases normNetloc_mem sch nl c hc with ⟨d, hd, rfl⟩ | hm | rfl
  · exact pyLowerChar_clean (h d hd)
  · exact h c hm
  · decide

theorem normNetloc_nd (sch nl : List Char) (h : ∀ c ∈ nl, netlocEnd c = false) :
    ∀ c ∈ normNetloc sch nl, netlocEnd c = false := by
  intro c hc
  rcases normNetloc_mem sch nl c hc with ⟨d, hd, rfl⟩ | hm | rfl
  · exact pyLowerChar_netlocEnd (h d hd)
  · exact h c hm
  · decide

/-- One normalization pass on a netloc with at most one colon is a
fixpoint of the pass. -/
theorem normNetloc_fix (sch nl : List Char) (hcount : nl.count ':' ≤ 1) :
    normNetloc sch (normNetloc sch nl) = normNetloc sch nl := by
  by_cases hc : ':' ∈ nl
  · rcases hsplit : rsplitOnceChar ':' nl with _ | ⟨host, port⟩
    · exfalso
      rw [rsplitOnceChar, Option.map_eq_none'] at hsplit
      exact splitOnce_none_not_mem ':' nl.reverse hsplit (List.mem_reverse.mpr hc)
    · obtain ⟨hdec, hnp⟩ := rsplitOnce_eq_some ':' nl host port hsplit
      have hcnt : host.count ':' = 0 := by
        rw [hdec] at hcount
        simp [List.count_append, List.count_cons] at hcount
        omega
      have hnh : ':' ∉ host := List.count_eq_zero.mp hcnt
      have hstep : normNetloc sch nl =
          if isDefaultPort sch port then pyLower host else pyLower host ++ ':' :: port := by
        rw [normNetloc, if_pos (by simpa using hc), hsplit]
      rw [hstep]
      by_cases hdef : isDefaultPort sch port = true
      · rw [if_pos hdef, normNetloc_no_colon _ _ (pyLower_colon_not_mem hnh), pyLower_idem]
      · rw [if_neg hdef, normNetloc_with_port _ _ _ hnp, if_neg hdef, pyLower_idem]
  · rw [normNetloc_no_colon _ _ hc,
      normNetloc_no_colon _ _ (pyLower_colon_not_mem hc), pyLower_idem]

theorem mem_opt_suffix {c : Char} (C : Prop) [Decidable C] (u t : List Char)
    (h : c ∈ if C then u ++ t else u) : c ∈ u ∨ c ∈ t := by
  split at h
  · exact List.mem_append.mp h
  · exact Or.inl h

theorem mem_opt_scheme {c s : Char} (C : Prop) [Decidable C] (pre u : List Char)
    (h : c ∈ if C then pre ++ s :: u else u) : c ∈ pre ∨ c = s ∨ c ∈ u := by
  split at h
  · rcases List.mem_append.mp h with h | h
    · exact Or.inl h
    · rcases List.mem_cons.mp h with rfl | h
      · exact Or.inr (Or.inl rfl)
      · exact Or.inr (Or.inr h)
  · exact Or.inr (Or.inr h)

theorem mem_authority {c : Char} (C1 C0 : Prop) [Decidable C1] [Decidable C0]
    (nl pa : List Char)
    (h : c ∈ if C1 then '/' :: '/' :: (nl ++ (if C0 then '/' :: pa else pa)) else pa) :
    c ∈ nl ∨ c ∈ pa ∨ c = '/' := by
  split at h
  · rcases List.mem_cons.mp h with rfl | h
    · exact Or.inr (Or.inr rfl)
    · rcases List.mem_cons.mp h with rfl | h
      · exact Or.inr (Or.inr rfl)
      · rcases List.mem_append.mp h with h | h
        · exact Or.inl h
        · split at h
          · rcases List.mem_cons.mp h with rfl | h
            · exact Or.inr (Or.inr rfl)
            · exact Or.inr (Or.inl h)
          · exact Or.inr (Or.inl h)
  · exact Or.inr (Or.inl h)

/-- Every character of an unsplit URL comes from a component or is one of
the four delimiters. -/
theorem urlunsplitL_mem (p : SplitParts) :
    ∀ c ∈ urlunsplitL p, c ∈ p.scheme ∨ c ∈ p.netloc ∨ c ∈ p.path ∨ c ∈ p.query ∨
      c ∈ p.fragment ∨ c = ':' ∨ c = '/' ∨ c = '?' ∨ c = '#' := by
  obtain ⟨sc, nl, pa, q, fr⟩ := p
  intro c hc
  rw [urlunsplitL] at hc
  dsimp only at hc
  rcases mem_opt_suffix _ _ _ hc with h3 | h3
  · rcases mem_opt_suffix _ _ _ h3 with h2 | h2
    · rcases mem_opt_scheme _ _ _ h2 with h1 | h1 | h1
      · exact Or.inl h1
      · tauto
      · rcases mem_authority _ _ _ _ h1 with h0 | h0 | h0 <;> tauto
    · rcases List.mem_cons.mp h2 with rfl | h0 <;> tauto
  · rcases List.mem_cons.mp h3 with rfl | h0 <;> tauto

theorem urlunsplitL_clean (p : SplitParts) (h1 : cleanL p.scheme) (h2 : cleanL p.netloc)
    (h3 : cleanL p.path) (h4 : cleanL p.query) (h5 : cleanL p.fragment) :
    cleanL (urlunsplitL p) := by
  intro c hc
  rcases urlunsplitL_mem p c hc with h | h | h | h | h | rfl | rfl | rfl | rfl
  · exact h1 c h
  · exact h2 c h
  · exact h3 c h
  · exact h4 c h
  · exact h5 c h
  · decide
  · decide
  · decide
  · decide

/-- A URL freshly produced by one normalization pass is a fixpoint of the
pass, provided its netloc normalization is itself stable. -/
theorem normalizeUrl_fix_aux (sch nl pa q : List Char)
    (hsOK : schemeOK sch) (hslow : pyLower sch = sch)
    (hncl : cleanL nl) (hnd : ∀ c ∈ nl, netlocEnd c = false)
    (hnfix : normNetloc sch nl = nl)
    (hpcl : cleanL pa) (hpq : '?' ∉ pa) (hpf : '#' ∉ pa) (hpane : pa ≠ [])
    (hqcl : cleanL q) (hqf : '#' ∉ q)
    (hshape : nl ≠ [] → pa.take 1 = ['/']) :
    normalizeUrlL (urlunsplitL ⟨sch, nl, pa, q, []⟩)
      = .ok (urlunsplitL ⟨sch, nl, pa, q, []⟩) := by
  have hrt := urlsplit_unsplit ⟨sch, nl, pa, q, []⟩ hsOK hslow rfl hncl hnd hpcl hpq hpf
    hqcl hqf (fun hne => Or.inr (hshape hne))
  have hucl : cleanL (urlunsplitL ⟨sch, nl, pa, q, []⟩) := by
    refine urlunsplitL_clean _ ?_ ?_ ?_ ?_ ?_ <;> dsimp only
    · exact schemeOK_clean hsOK
    · exact hncl
    · exact hpcl
    · exact hqcl
    · intro c hc
      simp at hc
  rw [normalizeUrlL, pyStrip_eq_self _ hucl]
  by_cases hue : urlunsplitL ⟨sch, nl, pa, q, []⟩ = []
  · rw [if_pos hue]
  · rw [if_neg hue, hrt]
    dsimp only
    rw [if_neg (schemeOK_ne_nil hsOK), hslow, hnfix, if_neg hpane]

set_option maxHeartbeats 1600000 in
/-- C10 counterexample: normalization is not idempotent as claimed.  On
`http://a:80:80/x` the first pass splits the netloc at its last colon and
drops the default port, exposing a second `:80` that only the next pass
removes. -/
theorem normalize_url_not_idempotent :
    normalize_url "http://a:80:80/x" = .ok "http://a:80/x" ∧
    normalize_url "http://a:80/x" = .ok "http://a/x" ∧
    (normalize_url "http://a:80:80/x").bind normalize_url
      ≠ normalize_url "http://a:80:80/x" := by
  refine ⟨rfl, rfl, fun h => ?_⟩
  have h2 : (Except.ok "http://a/x" : Except String String) = Except.ok "http://a:80/x" := h
  have h3 := congrArg String.data (Except.ok.inj h2)
  exact absurd h3 (by decide)

/-- C10 (amended).  URL normalization is idempotent on every clean
printable-ASCII input whose parsed netloc contains at most one colon:
`normalize_url (normalize_url s) = normalize_url s`.  (The original claim,
idempotency for every input string, fails — see the counterexample with a
doubled port.) -/
theorem normalize_url_idem (s : String)
    (hclean : ∀ c ∈ s.data, cleanChar c = true)
    (hcolon : ∀ p, urlsplitL s.data = .ok p → p.netloc.count ':' ≤ 1) :
    (normalize_url s).bind normalize_url = normalize_url s := by
  obtain ⟨l⟩ := s
  have hcl : cleanL l := hclean
  by_cases hl : l = []
  · subst hl
    rfl
  · obtain ⟨p, hp, hsch, hncl, hnd, hpcl, hpq, hpf, hqcl, hqf, hshape⟩ :=
      urlsplitL_ok l hcl
    have hcnt : p.netloc.count ':' ≤ 1 := hcolon p hp
    obtain ⟨sch1, hs1eq, hs1OK, hs1low⟩ : ∃ sch1,
        pyLower (if p.scheme = [] then "http".data else p.scheme) = sch1 ∧
        schemeOK sch1 ∧ pyLower sch1 = sch1 := by
      rcases hsch with hnil | ⟨hOK, hlow⟩
      · exact ⟨"http".data, by rw [hnil]; decide,
          ⟨⟨'h', "ttp".data, rfl, by decide⟩, by decide⟩, rfl⟩
      · exact ⟨p.scheme, by rw [if_neg (schemeOK_ne_nil hOK)]; exact hlow, hOK, hlow⟩
    have hpa1ne : (if p.path = [] then ['/'] else p.path) ≠ [] := by
      by_cases hpe : p.path = []
      · rw [if_pos hpe]
        simp
      · rw [if_neg hpe]
        exact hpe
    have hpa1cl : cleanL (if p.path = [] then ['/'] else p.path) := by
      by_cases hpe : p.path = []
      · rw [if_pos hpe]
        intro c hc
        rcases List.mem_cons.mp hc with rfl | h
        · decide
        · simp at h
      · rw [if_neg hpe]
        exact hpcl
    have hpa1q : '?' ∉ (if p.path = [] then ['/'] else p.path) := by
      by_cases hpe : p.path = []
      · rw [if_pos hpe]
        decide
      · rw [if_neg hpe]
        exact hpq
    have hpa1f : '#' ∉ (if p.path = [] then ['/'] else p.path) := by
      by_cases hpe : p.path = []
      · rw [if_pos hpe]
        decide
      · rw [if_neg hpe]
        exact hpf
    have hshape1 : normNetloc sch1 p.netloc ≠ [] →
        (if p.path = [] then ['/'] else p.path).take 1 = ['/'] := by
      intro hne
      by_cases hpe : p.path = []
      · rw [if_pos hpe]
        rfl
      · have hplne : p.netloc ≠ [] := by
          intro h0
          apply hne
          rw [h0]
          rfl
        rw [if_neg hpe]
        rcases hshape hplne with h0 | h1
        · exact absurd h0 hpe
        · exact h1
    have haux := normalizeUrl_fix_aux sch1 (normNetloc sch1 p.netloc)
      (if p.path = [] then ['/'] else p.path) p.query
      hs1OK hs1low
      (normNetloc_clean sch1 p.netloc hncl) (normNetloc_nd sch1 p.netloc hnd)
      (normNetloc_fix sch1 p.netloc hcnt)
      hpa1cl hpa1q hpa1f hpa1ne hqcl hqf hshape1
    have h1 : normalizeUrlL l = .ok (urlunsplitL ⟨sch1, normNetloc sch1 p.netloc,
        if p.path = [] then ['/'] else p.path, p.query, []⟩) := by
      rw [normalizeUrlL, pyStrip_eq_self l hcl, if_neg hl, hp]
      dsimp only
      rw [hs1eq]
    have h2 : normalize_url ⟨l⟩ = .ok ⟨urlunsplitL ⟨sch1, normNetloc sch1 p.netloc,
        if p.path = [] then ['/'] else p.path, p.query, []⟩⟩ := by
      rw [normalize_url]
      dsimp only
      rw [h1]
      rfl
    have hbind : ∀ (x : String) (f : String → Except String String),
        (Except.ok x).bind f = f x := fun x f => rfl
    rw [h2, hbind, normalize_url]
    dsimp only
    rw [haux]
    rfl

/-- Witness for `normalize_url_idem` at the clean single-colon-free input
`http://a/x`. -/
theorem normalize_url_idem_witness :
    (∀ c ∈ "http://a/x".data, cleanChar c = true) ∧
    (normalize_url "http://a/x").bind normalize_url = normalize_url "http://a/x" := by
  refine ⟨by decide, normalize_url_idem "http://a/x" (by decide) ?_⟩
  intro p hp
  have h2 : (⟨"http".data, "a".data, "/x".data, [], []⟩ : SplitParts) = p :=
    Except.ok.inj hp
  rw [← h2]
  decide

end Pocketish
